import Mathlib

/-!
Args, the typed-argument codec of massa-web3.

A shallow embedding of `lib.esm/utils/arguments.js` (class `Args`) together with
the primitive conversion routines of `./serializers` that it imports.

* A `Uint8Array` is a list of bytes (`Fin 256`).
* A JavaScript string is its list of UTF-16 code units, so that `arg.length`
  is `List.length` and `arg.slice(0, n)` is `List.take n`.
* A JavaScript `number` / `BigInt` holding an unsigned integer is a `Nat`, one
  holding a signed integer is an `Int`.
* An `Args` object is a record of its two fields; a method that mutates `this`
  returns the new record; a method that can throw returns `Except`.
-/

namespace MassaWeb3

/-- One element of a `Uint8Array`. -/
abbrev Byte := Fin 256

/-- Storing a number into a `Uint8Array` keeps its low eight bits. -/
def toByte (n : Nat) : Byte := ⟨n % 256, Nat.mod_lt n (by decide)⟩

/-- A JavaScript string, as the list of its UTF-16 code units. -/
abbrev JSString := List Nat

/-- The error kinds of the codec (section 7 of the specification) and the
`Error` thrown by the array getters of `Args`. -/
inductive ArgsError where
  | truncatedBuffer
  | invalidEncoding
  | unsupportedNativeType
  | valueTooLarge
  | arrayLength
  | doesNotTerminate
  deriving DecidableEq, Repr

/-! ## Primitive codec leaves (`./serializers`) -/

/-- Modelled from the spec: `u8toByte` of `./serializers`, the one-byte
fixed-width encoding of an unsigned integer. -/
def u8toByte (val : Nat) : List Byte := [toByte val]

/-- Modelled from the spec: `byteToU8` of `./serializers`, the one-byte decoder;
a decode that requires more bytes than remain raises `TruncatedBuffer`. -/
def byteToU8 (arr : List Byte) (offset : Nat) : Except ArgsError Nat :=
  match arr.drop offset with
  | b :: _ => .ok b.val
  | [] => .error .truncatedBuffer

/-- Modelled from the spec: `u32ToBytes` of `./serializers`, the four-byte
little-endian encoding of an unsigned integer. -/
def u32ToBytes (val : Nat) : List Byte :=
  [toByte val, toByte (val / 256), toByte (val / 65536), toByte (val / 16777216)]

/-- Modelled from the spec: `bytesToU32` of `./serializers`, the four-byte
little-endian decoder; a decode that requires more bytes than remain raises
`TruncatedBuffer`. -/
def bytesToU32 (arr : List Byte) (offset : Nat) : Except ArgsError Nat :=
  match arr.drop offset with
  | b0 :: b1 :: b2 :: b3 :: _ =>
    .ok (b0.val + 256 * b1.val + 65536 * b2.val + 16777216 * b3.val)
  | _ => .error .truncatedBuffer

/-- Modelled from the spec: `u64ToBytes` of `./serializers`, the eight-byte
little-endian encoding of an unsigned integer. -/
def u64ToBytes (val : Nat) : List Byte :=
  u32ToBytes (val % 4294967296) ++ u32ToBytes (val / 4294967296)

/-- Modelled from the spec: `bytesToU64` of `./serializers`, the eight-byte
little-endian decoder; a decode that requires more bytes than remain raises
`TruncatedBuffer`. -/
def bytesToU64 (arr : List Byte) (offset : Nat) : Except ArgsError Nat :=
  match arr.drop offset with
  | b0 :: b1 :: b2 :: b3 :: b4 :: b5 :: b6 :: b7 :: _ =>
    .ok (b0.val + 256 * b1.val + 65536 * b2.val + 16777216 * b3.val
      + 4294967296 * (b4.val + 256 * b5.val + 65536 * b6.val + 16777216 * b7.val))
  | _ => .error .truncatedBuffer

/-- Modelled from the spec: `i32ToBytes` of `./serializers`, the four-byte
little-endian two's-complement encoding of a signed integer. -/
def i32ToBytes (val : Int) : List Byte := u32ToBytes (val % 4294967296).toNat

/-- Modelled from the spec: `bytesToI32` of `./serializers`, the four-byte
little-endian two's-complement decoder. -/
def bytesToI32 (arr : List Byte) (offset : Nat) : Except ArgsError Int :=
  match bytesToU32 arr offset with
  | .ok u => .ok (if u < 2147483648 then (u : Int) else (u : Int) - 4294967296)
  | .error e => .error e

/-- Modelled from the spec: `i64ToBytes` of `./serializers`, the eight-byte
little-endian two's-complement encoding of a signed integer. -/
def i64ToBytes (val : Int) : List Byte := u64ToBytes (val % 18446744073709551616).toNat

/-- Modelled from the spec: `bytesToI64` of `./serializers`, the eight-byte
little-endian two's-complement decoder. -/
def bytesToI64 (arr : List Byte) (offset : Nat) : Except ArgsError Int :=
  match bytesToU64 arr offset with
  | .ok u =>
    .ok (if u < 9223372036854775808 then (u : Int) else (u : Int) - 18446744073709551616)
  | .error e => .error e

/-- The UTF-8 encoding of one code point (one to four bytes). -/
def utf8Encode (cp : Nat) : List Byte :=
  if cp < 128 then [toByte cp]
  else if cp < 2048 then [toByte (192 + cp / 64), toByte (128 + cp % 64)]
  else if cp < 65536 then
    [toByte (224 + cp / 4096), toByte (128 + cp / 64 % 64), toByte (128 + cp % 64)]
  else
    [toByte (240 + cp / 262144), toByte (128 + cp / 4096 % 64), toByte (128 + cp / 64 % 64),
      toByte (128 + cp % 64)]

/-- A leading (high) surrogate code unit, `0xD800..0xDBFF`. -/
def isHighSurrogate (u : Nat) : Bool := decide (55296 ≤ u) && decide (u < 56320)

/-- A trailing (low) surrogate code unit, `0xDC00..0xDFFF`. -/
def isLowSurrogate (u : Nat) : Bool := decide (56320 ≤ u) && decide (u < 57344)

/-- The code point written by a surrogate pair. -/
def pairToCodePoint (hi lo : Nat) : Nat := 65536 + (hi - 55296) * 1024 + (lo - 56320)

/-- The UTF-16 code units of one code point. -/
def utf16Units (cp : Nat) : List Nat :=
  if cp < 65536 then [cp] else [55296 + (cp - 65536) / 1024, 56320 + (cp - 65536) % 1024]

/-- Modelled from the spec: `strToBytes` of `./serializers`, the conversion of
text to UTF-8 bytes. It has no failure mode: a surrogate pair is one code point
of four bytes, and a surrogate code unit outside a pair is written as U+FFFD. -/
def strToBytes : JSString → List Byte
  | [] => []
  | [u] =>
    if isHighSurrogate u || isLowSurrogate u then utf8Encode 65533 else utf8Encode u
  | u :: l :: rest =>
    if isHighSurrogate u && isLowSurrogate l then
      utf8Encode (pairToCodePoint u l) ++ strToBytes rest
    else if isHighSurrogate u || isLowSurrogate u then
      utf8Encode 65533 ++ strToBytes (l :: rest)
    else utf8Encode u ++ strToBytes (l :: rest)

/-- The UTF-8 decoder as a byte-at-a-time automaton: `need` continuation bytes
are still expected for the code point accumulated in `cp`, and the next
continuation byte has to lie in `lower..upper` (which rules out overlong forms,
surrogates and code points above U+10FFFF). Malformed input is an error. -/
def utf8Decode : Nat → Nat → Nat → Nat → List Byte → Except ArgsError JSString
  | 0, _, _, _, [] => .ok []
  | _ + 1, _, _, _, [] => .error .invalidEncoding
  | 0, _, _, _, b :: rest =>
    if b.val < 128 then
      match utf8Decode 0 0 128 191 rest with
      | .ok s => .ok (b.val :: s)
      | .error e => .error e
    else if 194 ≤ b.val ∧ b.val ≤ 223 then utf8Decode 1 (b.val - 192) 128 191 rest
    else if 224 ≤ b.val ∧ b.val ≤ 239 then
      utf8Decode 2 (b.val - 224) (if b.val = 224 then 160 else 128)
        (if b.val = 237 then 159 else 191) rest
    else if 240 ≤ b.val ∧ b.val ≤ 244 then
      utf8Decode 3 (b.val - 240) (if b.val = 240 then 144 else 128)
        (if b.val = 244 then 143 else 191) rest
    else .error .invalidEncoding
  | n + 1, cp, lower, upper, b :: rest =>
    if lower ≤ b.val ∧ b.val ≤ upper then
      if n = 0 then
        match utf8Decode 0 0 128 191 rest with
        | .ok s => .ok (utf16Units (cp * 64 + (b.val - 128)) ++ s)
        | .error e => .error e
      else utf8Decode n (cp * 64 + (b.val - 128)) 128 191 rest
    else .error .invalidEncoding

/-- Modelled from the spec: `bytesToStr` of `./serializers`, the conversion of
UTF-8 bytes to text; its only failure mode is malformed UTF-8. -/
def bytesToStr (arr : List Byte) : Except ArgsError JSString := utf8Decode 0 0 128 191 arr

/-- The result of decoding after a code point has been completed: its code
units, then what the rest of the input decodes to. -/
def utf8Emit (units : List Nat) (r : Except ArgsError JSString) : Except ArgsError JSString :=
  match r with
  | .ok s => .ok (units ++ s)
  | .error e => .error e

/-- A string without a surrogate code unit outside a surrogate pair
(`String.prototype.isWellFormed`), all of whose code units are 16-bit. -/
def isWellFormed : JSString → Bool
  | [] => true
  | [u] => decide (u < 65536) && !(isHighSurrogate u || isLowSurrogate u)
  | u :: l :: rest =>
    if isHighSurrogate u then isLowSurrogate l && isWellFormed rest
    else decide (u < 65536) && !isLowSurrogate u && isWellFormed (l :: rest)

/-- The little-endian byte string of `width` bytes for `v`, as section 4.1 of the
specification words it: least significant byte first. -/
def littleEndian : Nat → Nat → List Nat
  | 0, _ => []
  | width + 1, v => v % 256 :: littleEndian width (v / 256)

/-- The number written by a little-endian byte string. -/
def fromLittleEndian : List Nat → Nat
  | [] => 0
  | b :: rest => b + 256 * fromLittleEndian rest

/-! ## The `Args` class -/

/-- The two fields of an `Args` object. -/
structure Args where
  offset : Nat
  serialized : List Byte
  deriving DecidableEq, Repr

namespace Args

/-- `constructor(serialized = [], offset = 0)`: `Uint8Array.from` keeps the low
eight bits of every element. -/
def new (serialized : List Nat) (offset : Nat) : Args :=
  { offset := offset, serialized := serialized.map toByte }

/-- `new Args()`: both parameters take their defaults. -/
def fresh : Args := Args.new [] 0

/-- `getOffset()`. -/
def getOffset (a : Args) : Nat := a.offset

/-- `serialize()`: `Array.from(this.serialized)`. -/
def serialize (a : Args) : List Nat := a.serialized.map Fin.val

/-- `concatArrays(a, b)`: `new Uint8Array([...a, ...b])`. -/
def concatArrays (a b : List Byte) : List Byte := a ++ b

/-- `nextU8()`. -/
def nextU8 (a : Args) : Except ArgsError (Nat × Args) :=
  match byteToU8 a.serialized a.offset with
  | .ok value => .ok (value, { a with offset := a.offset + 1 })
  | .error e => .error e

/-- `nextU32()`. -/
def nextU32 (a : Args) : Except ArgsError (Nat × Args) :=
  match bytesToU32 a.serialized a.offset with
  | .ok value => .ok (value, { a with offset := a.offset + 4 })
  | .error e => .error e

/-- `nextU64()`. -/
def nextU64 (a : Args) : Except ArgsError (Nat × Args) :=
  match bytesToU64 a.serialized a.offset with
  | .ok value => .ok (value, { a with offset := a.offset + 8 })
  | .error e => .error e

/-- `nextBool()`: `!!this.serialized[this.offset++]`; an index past the end reads
`undefined`, which is falsy. -/
def nextBool (a : Args) : Bool × Args :=
  (match a.serialized[a.offset]? with
   | some b => decide (b.val ≠ 0)
   | none => false,
   { a with offset := a.offset + 1 })

/-- `nextI32()`. -/
def nextI32 (a : Args) : Except ArgsError (Int × Args) :=
  match bytesToI32 a.serialized a.offset with
  | .ok value => .ok (value, { a with offset := a.offset + 4 })
  | .error e => .error e

/-- `nextI64()`. -/
def nextI64 (a : Args) : Except ArgsError (Int × Args) :=
  match bytesToI64 a.serialized a.offset with
  | .ok value => .ok (value, { a with offset := a.offset + 8 })
  | .error e => .error e

/-- `addU8(value)`. -/
def addU8 (value : Nat) (a : Args) : Args :=
  { serialized := concatArrays a.serialized (u8toByte value), offset := a.offset + 1 }

/-- `addBool(value)`. -/
def addBool (value : Bool) (a : Args) : Args :=
  { serialized := concatArrays a.serialized (u8toByte (if value then 1 else 0)),
    offset := a.offset + 1 }

/-- `addU32(value)`. -/
def addU32 (value : Nat) (a : Args) : Args :=
  { serialized := concatArrays a.serialized (u32ToBytes value), offset := a.offset + 4 }

/-- `addU64(bigInt)`. -/
def addU64 (bigInt : Nat) (a : Args) : Args :=
  { serialized := concatArrays a.serialized (u64ToBytes bigInt), offset := a.offset + 8 }

/-- `addI32(value)`. -/
def addI32 (value : Int) (a : Args) : Args :=
  { serialized := concatArrays a.serialized (i32ToBytes value), offset := a.offset + 4 }

/-- `addI64(bigInt)`. -/
def addI64 (bigInt : Int) (a : Args) : Args :=
  { serialized := concatArrays a.serialized (i64ToBytes bigInt), offset := a.offset + 8 }

/-- `Uint8Array.prototype.slice(start, end)` for non-negative indices: both are
clamped to the length of the array. -/
def slice (arr : List Byte) (start stop : Nat) : List Byte := (arr.take stop).drop start

/-- `nextString()`. -/
def nextString (a : Args) : Except ArgsError (JSString × Args) :=
  match a.nextU32 with
  | .error e => .error e
  | .ok (length, a1) =>
    let stop := a1.offset + length
    match bytesToStr (slice a1.serialized a1.offset stop) with
    | .ok result => .ok (result, { a1 with offset := stop })
    | .error e => .error e

/-- `nextUint8Array()`. -/
def nextUint8Array (a : Args) : Except ArgsError (List Byte × Args) :=
  match a.nextU32 with
  | .error e => .error e
  | .ok (length, a1) =>
    let byteArray := slice a1.serialized a1.offset (a1.offset + length)
    .ok (byteArray, { a1 with offset := a1.offset + length })

/-- `addUint8Array(array)`. -/
def addUint8Array (array : List Byte) (a : Args) : Args :=
  let a1 := a.addU32 array.length
  { serialized := concatArrays a1.serialized array, offset := a1.offset + array.length }

/-- `addString(arg)`: a string of more than `maxSize` code units is cut to its
first `maxSize` code units (after `console.warn`); the offset is moved by the
inner `addU32` only. -/
def addString (arg : JSString) (a : Args) : Args :=
  let maxSize := 4294967295
  let size := arg.length
  let arg := if size > maxSize then arg.take maxSize else arg
  let serialized := strToBytes arg
  let a1 := a.addU32 serialized.length
  { a1 with serialized := concatArrays a1.serialized (strToBytes arg) }

end Args

/-! ## Sequences of typed values -/

/-- A typed value handed to one of the `add` methods. -/
inductive ArgValue where
  | u8 (v : Nat)
  | bool (b : Bool)
  | u32 (v : Nat)
  | u64 (v : Nat)
  | i32 (v : Int)
  | i64 (v : Int)
  | string (s : JSString)
  | uint8Array (a : List Byte)
  deriving DecidableEq, Repr

/-- The `next` method a consumer calls. -/
inductive ArgType where
  | u8 | bool | u32 | u64 | i32 | i64 | string | uint8Array
  deriving DecidableEq, Repr

/-- The type of a value. -/
def ArgValue.type : ArgValue → ArgType
  | .u8 _ => .u8
  | .bool _ => .bool
  | .u32 _ => .u32
  | .u64 _ => .u64
  | .i32 _ => .i32
  | .i64 _ => .i64
  | .string _ => .string
  | .uint8Array _ => .uint8Array

/-- The valid range of each type: the integer ranges, well-formed strings whose
UTF-8 encoding is shorter than 2^32 bytes, byte arrays shorter than 2^32. -/
def ArgValue.inRange : ArgValue → Bool
  | .u8 v => decide (v < 256)
  | .bool _ => true
  | .u32 v => decide (v < 4294967296)
  | .u64 v => decide (v < 18446744073709551616)
  | .i32 v => decide (-2147483648 ≤ v) && decide (v < 2147483648)
  | .i64 v => decide (-9223372036854775808 ≤ v) && decide (v < 9223372036854775808)
  | .string s => isWellFormed s && decide ((strToBytes s).length < 4294967296)
  | .uint8Array a => decide (a.length < 4294967296)

/-- The `add` method for a value. -/
def Args.add (v : ArgValue) (a : Args) : Args :=
  match v with
  | .u8 v => a.addU8 v
  | .bool b => a.addBool b
  | .u32 v => a.addU32 v
  | .u64 v => a.addU64 v
  | .i32 v => a.addI32 v
  | .i64 v => a.addI64 v
  | .string s => a.addString s
  | .uint8Array arr => a.addUint8Array arr

/-- The `next` method for a type. -/
def Args.next (t : ArgType) (a : Args) : Except ArgsError (ArgValue × Args) :=
  match t with
  | .u8 => (a.nextU8).map (fun r => (.u8 r.1, r.2))
  | .bool => .ok (.bool a.nextBool.1, a.nextBool.2)
  | .u32 => (a.nextU32).map (fun r => (.u32 r.1, r.2))
  | .u64 => (a.nextU64).map (fun r => (.u64 r.1, r.2))
  | .i32 => (a.nextI32).map (fun r => (.i32 r.1, r.2))
  | .i64 => (a.nextI64).map (fun r => (.i64 r.1, r.2))
  | .string => (a.nextString).map (fun r => (.string r.1, r.2))
  | .uint8Array => (a.nextUint8Array).map (fun r => (.uint8Array r.1, r.2))

/-- A chain of `add` calls, in order. -/
def Args.addAll : List ArgValue → Args → Args
  | [], a => a
  | v :: vs, a => Args.addAll vs (a.add v)

/-- A chain of `next` calls, in order; the first error aborts the chain. -/
def Args.nextAll : List ArgType → Args → Except ArgsError (List ArgValue × Args)
  | [], a => .ok ([], a)
  | t :: ts, a =>
    match a.next t with
    | .error e => .error e
    | .ok (v, a1) =>
      match Args.nextAll ts a1 with
      | .error e => .error e
      | .ok (vs, a2) => .ok (v :: vs, a2)

/-- The bytes one value occupies on the wire. -/
def ArgValue.encoding : ArgValue → List Byte
  | .u8 v => u8toByte v
  | .bool b => u8toByte (if b then 1 else 0)
  | .u32 v => u32ToBytes v
  | .u64 v => u64ToBytes v
  | .i32 v => i32ToBytes v
  | .i64 v => i64ToBytes v
  | .string s => u32ToBytes (strToBytes s).length ++ strToBytes s
  | .uint8Array arr => u32ToBytes arr.length ++ arr

/-- The bytes a sequence of values occupies on the wire. -/
def ArgValue.encodingAll : List ArgValue → List Byte
  | [] => []
  | v :: vs => v.encoding ++ ArgValue.encodingAll vs

/-! ## Floats, native-type arrays and serializable objects -/

/-- Modelled from the spec: `f32ToBytes` of `./serializers`, the four-byte
little-endian encoding of a 32-bit float; the float is given by its IEEE-754 bit
pattern, the encoding being bit-for-bit. -/
def f32ToBytes (bits : Nat) : List Byte := u32ToBytes bits

/-- Modelled from the spec: `bytesToF32` of `./serializers`, the four-byte
little-endian decoder of a 32-bit float, returned as its bit pattern. -/
def bytesToF32 (arr : List Byte) (offset : Nat) : Except ArgsError Nat := bytesToU32 arr offset

/-- Modelled from the spec: `f64ToBytes` of `./serializers`, the eight-byte
little-endian encoding of a 64-bit float given by its bit pattern. -/
def f64ToBytes (bits : Nat) : List Byte := u64ToBytes bits

/-- Modelled from the spec: `bytesToF64` of `./serializers`, the eight-byte
little-endian decoder of a 64-bit float, returned as its bit pattern. -/
def bytesToF64 (arr : List Byte) (offset : Nat) : Except ArgsError Nat := bytesToU64 arr offset

/-- The enumeration `TypedArrayUnit` of `arguments.js`. -/
inductive TypedArrayUnit where
  | STRING | BOOL | U8 | U32 | U64 | I32 | I64 | F32 | F64
  deriving DecidableEq, Repr

/-- The element type `T` of `T[]` for each tag (floats as bit patterns). -/
abbrev TypedArrayUnit.Elem : TypedArrayUnit → Type
  | .STRING => JSString
  | .BOOL => Bool
  | .U8 => Nat
  | .U32 => Nat
  | .U64 => Nat
  | .I32 => Int
  | .I64 => Int
  | .F32 => Nat
  | .F64 => Nat

/-- The encoding of one array element: fixed-width, or length-prefixed for a
string. -/
def nativeTypeToBytes : (type : TypedArrayUnit) → type.Elem → List Byte
  | .STRING, s => u32ToBytes (strToBytes s).length ++ strToBytes s
  | .BOOL, b => u8toByte (if b then 1 else 0)
  | .U8, v => u8toByte v
  | .U32, v => u32ToBytes v
  | .U64, v => u64ToBytes v
  | .I32, v => i32ToBytes v
  | .I64, v => i64ToBytes v
  | .F32, v => f32ToBytes v
  | .F64, v => f64ToBytes v

/-- Modelled from the spec: `nativeTypeArrayToBytes` of `./serializers`, the
concatenated fixed-width or length-prefixed encodings of each element. -/
def nativeTypeArrayToBytes (type : TypedArrayUnit) : List type.Elem → List Byte
  | [] => []
  | x :: xs => nativeTypeToBytes type x ++ nativeTypeArrayToBytes type xs

/-- The decoder of one array element from the front of a sub-range; it returns the
element and the bytes that follow it. A truncated element is `TruncatedBuffer`. -/
def bytesToNativeType : (type : TypedArrayUnit) → List Byte →
    Except ArgsError (type.Elem × List Byte)
  | .STRING, src =>
    match bytesToU32 src 0 with
    | .error e => .error e
    | .ok len =>
      if (src.drop 4).length < len then .error .truncatedBuffer
      else
        match bytesToStr ((src.drop 4).take len) with
        | .ok s => .ok (s, (src.drop 4).drop len)
        | .error e => .error e
  | .BOOL, src =>
    match byteToU8 src 0 with
    | .ok v => .ok (decide (v ≠ 0), src.drop 1)
    | .error e => .error e
  | .U8, src =>
    match byteToU8 src 0 with
    | .ok v => .ok (v, src.drop 1)
    | .error e => .error e
  | .U32, src =>
    match bytesToU32 src 0 with
    | .ok v => .ok (v, src.drop 4)
    | .error e => .error e
  | .U64, src =>
    match bytesToU64 src 0 with
    | .ok v => .ok (v, src.drop 8)
    | .error e => .error e
  | .I32, src =>
    match bytesToI32 src 0 with
    | .ok v => .ok (v, src.drop 4)
    | .error e => .error e
  | .I64, src =>
    match bytesToI64 src 0 with
    | .ok v => .ok (v, src.drop 8)
    | .error e => .error e
  | .F32, src =>
    match bytesToF32 src 0 with
    | .ok v => .ok (v, src.drop 4)
    | .error e => .error e
  | .F64, src =>
    match bytesToF64 src 0 with
    | .ok v => .ok (v, src.drop 8)
    | .error e => .error e

/-- The element decoder applied repeatedly until the sub-range is exhausted. Every
element takes at least one byte, so as many rounds as there are bytes always
suffice. -/
def bytesToNativeTypeArrayLoop (type : TypedArrayUnit) :
    Nat → List Byte → Except ArgsError (List type.Elem)
  | _, [] => .ok []
  | 0, _ :: _ => .error .doesNotTerminate
  | fuel + 1, b :: rest =>
    match bytesToNativeType type (b :: rest) with
    | .error e => .error e
    | .ok (v, remaining) =>
      match bytesToNativeTypeArrayLoop type fuel remaining with
      | .error e => .error e
      | .ok vs => .ok (v :: vs)

/-- Modelled from the spec: `bytesToNativeTypeArray` of `./serializers`, which
repeatedly applies the element decoder of the tag to the sub-range until it is
exhausted. -/
def bytesToNativeTypeArray (source : List Byte) (type : TypedArrayUnit) :
    Except ArgsError (List type.Elem) :=
  bytesToNativeTypeArrayLoop type source.length source

/-- The serializable capability: `serialize() -> bytes` of a value and the paired
`decode(bytes, offset) -> (value, new_offset)` of its class. -/
structure ISerializable (α : Type) where
  serialize : α → List Byte
  deserialize : List Byte → Nat → Except ArgsError (α × Nat)

/-- Modelled from the spec: `deserializeObj` of `./serializers`, which delegates to
the decode capability, passing the buffer and the offset, and returns the instance
and the new offset. -/
def deserializeObj {α : Type} (data : List Byte) (offset : Nat) (Clazz : ISerializable α) :
    Except ArgsError (α × Nat) :=
  Clazz.deserialize data offset

/-- Modelled from the spec: `serializableObjectsArrayToBytes` of `./serializers`,
the concatenated serialized elements. -/
def serializableObjectsArrayToBytes {α : Type} (Clazz : ISerializable α) : List α → List Byte
  | [] => []
  | x :: xs => Clazz.serialize x ++ serializableObjectsArrayToBytes Clazz xs

/-- The decode capability applied repeatedly from offset 0 until the sub-range is
exhausted, each element reporting its own new offset. A run that ends visits each
offset below the length at most once, so as many rounds as there are bytes
suffice; one that needs more never ends. -/
def bytesToSerializableObjectArrayLoop {α : Type} (data : List Byte) (Clazz : ISerializable α) :
    Nat → Nat → Except ArgsError (List α)
  | 0, offset => if offset < data.length then .error .doesNotTerminate else .ok []
  | fuel + 1, offset =>
    if offset < data.length then
      match deserializeObj data offset Clazz with
      | .error e => .error e
      | .ok (inst, next) =>
        match bytesToSerializableObjectArrayLoop data Clazz fuel next with
        | .error e => .error e
        | .ok rest => .ok (inst :: rest)
    else .ok []

/-- Modelled from the spec: `bytesToSerializableObjectArray` of `./serializers`,
which repeatedly applies the decode capability to the sub-range until it is
exhausted. -/
def bytesToSerializableObjectArray {α : Type} (data : List Byte) (Clazz : ISerializable α) :
    Except ArgsError (List α) :=
  bytesToSerializableObjectArrayLoop data Clazz data.length 0

namespace Args

/-- `nextF32()`. -/
def nextF32 (a : Args) : Except ArgsError (Nat × Args) :=
  match bytesToF32 a.serialized a.offset with
  | .ok value => .ok (value, { a with offset := a.offset + 4 })
  | .error e => .error e

/-- `nextF64()`. -/
def nextF64 (a : Args) : Except ArgsError (Nat × Args) :=
  match bytesToF64 a.serialized a.offset with
  | .ok value => .ok (value, { a with offset := a.offset + 8 })
  | .error e => .error e

/-- `nextSerializable(Clazz)`: the offset becomes the one `deserializeObj`
returns. -/
def nextSerializable {α : Type} (Clazz : ISerializable α) (a : Args) :
    Except ArgsError (α × Args) :=
  match deserializeObj a.serialized a.offset Clazz with
  | .ok deserializationResult =>
    .ok (deserializationResult.1, { a with offset := deserializationResult.2 })
  | .error e => .error e

/-- `getNextData(size)`. -/
def getNextData (a : Args) (size : Nat) : List Byte :=
  slice a.serialized a.offset (a.offset + size)

/-- `nextSerializableObjectArray(Clazz)`. -/
def nextSerializableObjectArray {α : Type} (Clazz : ISerializable α) (a : Args) :
    Except ArgsError (List α × Args) :=
  match a.nextU32 with
  | .error e => .error e
  | .ok (length, a1) =>
    if a1.offset + length > a1.serialized.length then .error .arrayLength
    else
      let bufferSize := length
      if bufferSize = 0 then .ok ([], a1)
      else
        let buffer := a1.getNextData bufferSize
        match bytesToSerializableObjectArray buffer Clazz with
        | .ok value => .ok (value, { a1 with offset := a1.offset + bufferSize })
        | .error e => .error e

/-- `nextNativeTypeArray(typedArrayType)`. -/
def nextNativeTypeArray (typedArrayType : TypedArrayUnit) (a : Args) :
    Except ArgsError (List typedArrayType.Elem × Args) :=
  match a.nextU32 with
  | .error e => .error e
  | .ok (length, a1) =>
    if a1.offset + length > a1.serialized.length then .error .arrayLength
    else
      let bufferSize := length
      if bufferSize = 0 then .ok ([], a1)
      else
        let buffer := a1.getNextData bufferSize
        match bytesToNativeTypeArray buffer typedArrayType with
        | .ok value => .ok (value, { a1 with offset := a1.offset + bufferSize })
        | .error e => .error e

/-- `addF32(value)`. -/
def addF32 (value : Nat) (a : Args) : Args :=
  { serialized := concatArrays a.serialized (f32ToBytes value), offset := a.offset + 4 }

/-- `addF64(value)`. -/
def addF64 (value : Nat) (a : Args) : Args :=
  { serialized := concatArrays a.serialized (f64ToBytes value), offset := a.offset + 8 }

/-- `addSerializable(value)`. -/
def addSerializable {α : Type} (Clazz : ISerializable α) (value : α) (a : Args) : Args :=
  let serializedValue := Clazz.serialize value
  { serialized := concatArrays a.serialized serializedValue,
    offset := a.offset + serializedValue.length }

/-- `addSerializableObjectArray(arg)`: the offset is moved by the inner `addU32`
only. -/
def addSerializableObjectArray {α : Type} (Clazz : ISerializable α) (arg : List α)
    (a : Args) : Args :=
  let content := serializableObjectsArrayToBytes Clazz arg
  let a1 := a.addU32 content.length
  { a1 with serialized := concatArrays a1.serialized content }

/-- `addNativeTypeArray(arg, type)`: the offset is moved by the inner `addU32`
only. -/
def addNativeTypeArray (type : TypedArrayUnit) (arg : List type.Elem) (a : Args) : Args :=
  let content := nativeTypeArrayToBytes type arg
  let a1 := a.addU32 content.length
  { a1 with serialized := concatArrays a1.serialized content }

end Args

/-- A class of one-byte objects: an object is a number, serialized as its low
byte; decoding reads one byte and moves the offset by one. -/
def byteObject : ISerializable Nat where
  serialize := fun v => [toByte v]
  deserialize := fun data offset =>
    match data[offset]? with
    | some b => .ok (b.val, offset + 1)
    | none => .error .truncatedBuffer

/-- A class whose decode capability always fails. -/
def failingObject : ISerializable Nat where
  serialize := fun v => [toByte v]
  deserialize := fun _ _ => .error .invalidEncoding

/-- A class whose decode capability reads nothing and returns offset 0. -/
def rewindingObject : ISerializable Unit where
  serialize := fun _ => []
  deserialize := fun _ _ => .ok ((), 0)

/-! ## The operations of `Args`, as data -/

/-- One call of an `add` method, with its arguments. -/
inductive AddOp : Type 1 where
  | addU8 (value : Nat)
  | addBool (value : Bool)
  | addU32 (value : Nat)
  | addU64 (bigInt : Nat)
  | addI32 (value : Int)
  | addI64 (bigInt : Int)
  | addF32 (value : Nat)
  | addF64 (value : Nat)
  | addUint8Array (array : List Byte)
  | addString (arg : JSString)
  | addSerializable {α : Type} (Clazz : ISerializable α) (value : α)
  | addSerializableObjectArray {α : Type} (Clazz : ISerializable α) (arg : List α)
  | addNativeTypeArray (type : TypedArrayUnit) (arg : List type.Elem)

/-- The state after the call. -/
def AddOp.run : AddOp → Args → Args
  | .addU8 value, a => a.addU8 value
  | .addBool value, a => a.addBool value
  | .addU32 value, a => a.addU32 value
  | .addU64 bigInt, a => a.addU64 bigInt
  | .addI32 value, a => a.addI32 value
  | .addI64 bigInt, a => a.addI64 bigInt
  | .addF32 value, a => a.addF32 value
  | .addF64 value, a => a.addF64 value
  | .addUint8Array array, a => a.addUint8Array array
  | .addString arg, a => a.addString arg
  | .addSerializable Clazz value, a => a.addSerializable Clazz value
  | .addSerializableObjectArray Clazz arg, a => a.addSerializableObjectArray Clazz arg
  | .addNativeTypeArray type arg, a => a.addNativeTypeArray type arg

/-- One call of a `next` method, with its arguments. -/
inductive NextOp : Type 1 where
  | nextString
  | nextU8
  | nextU32
  | nextU64
  | nextBool
  | nextI32
  | nextI64
  | nextF32
  | nextF64
  | nextUint8Array
  | nextSerializable {α : Type} (Clazz : ISerializable α)
  | nextSerializableObjectArray {α : Type} (Clazz : ISerializable α)
  | nextNativeTypeArray (typedArrayType : TypedArrayUnit)

/-- The state after a call that returns normally (the returned value is left
out), or the error it raises. -/
def NextOp.run : NextOp → Args → Except ArgsError Args
  | .nextString, a => a.nextString.map Prod.snd
  | .nextU8, a => a.nextU8.map Prod.snd
  | .nextU32, a => a.nextU32.map Prod.snd
  | .nextU64, a => a.nextU64.map Prod.snd
  | .nextBool, a => .ok a.nextBool.2
  | .nextI32, a => a.nextI32.map Prod.snd
  | .nextI64, a => a.nextI64.map Prod.snd
  | .nextF32, a => a.nextF32.map Prod.snd
  | .nextF64, a => a.nextF64.map Prod.snd
  | .nextUint8Array, a => a.nextUint8Array.map Prod.snd
  | .nextSerializable Clazz, a => (a.nextSerializable Clazz).map Prod.snd
  | .nextSerializableObjectArray Clazz, a => (a.nextSerializableObjectArray Clazz).map Prod.snd
  | .nextNativeTypeArray typedArrayType, a =>
    (a.nextNativeTypeArray typedArrayType).map Prod.snd

/-- Whether the call is `nextSerializable`. -/
def NextOp.isNextSerializable : NextOp → Bool
  | .nextSerializable _ => true
  | _ => false

/-- Whether the getter raises when the bytes it needs are not all in the buffer:
the fixed-width getters other than `nextBool` (through their converter) and the
two array getters (through their own check) do; `nextBool`, `nextString` and
`nextUint8Array` read without a check, and `nextSerializable` leaves the reading
to the decode capability. -/
def NextOp.isBoundChecked : NextOp → Bool
  | .nextBool => false
  | .nextString => false
  | .nextUint8Array => false
  | .nextSerializable _ => false
  | _ => true

/-- A class whose decode capability reads nothing and returns an offset one past
the end of the buffer. -/
def overshootingObject : ISerializable Unit where
  serialize := fun _ => []
  deserialize := fun data _ => .ok ((), data.length + 1)

/-- The fixed-width `next` methods. -/
inductive FixedWidthOp where
  | nextU8 | nextBool | nextU32 | nextI32 | nextF32 | nextU64 | nextI64 | nextF64
  deriving DecidableEq, Repr

/-- The number of bytes the method reads. -/
def FixedWidthOp.width : FixedWidthOp → Nat
  | .nextU8 => 1
  | .nextBool => 1
  | .nextU32 => 4
  | .nextI32 => 4
  | .nextF32 => 4
  | .nextU64 => 8
  | .nextI64 => 8
  | .nextF64 => 8

/-- The type of the value the method returns (floats as bit patterns). -/
abbrev FixedWidthOp.Value : FixedWidthOp → Type
  | .nextU8 => Nat
  | .nextBool => Bool
  | .nextU32 => Nat
  | .nextI32 => Int
  | .nextF32 => Nat
  | .nextU64 => Nat
  | .nextI64 => Int
  | .nextF64 => Nat

/-- The call of the method on a state. -/
def FixedWidthOp.run : (op : FixedWidthOp) → Args → Except ArgsError (op.Value × Args)
  | .nextU8, a => a.nextU8
  | .nextBool, a => .ok a.nextBool
  | .nextU32, a => a.nextU32
  | .nextI32, a => a.nextI32
  | .nextF32, a => a.nextF32
  | .nextU64, a => a.nextU64
  | .nextI64, a => a.nextI64
  | .nextF64, a => a.nextF64

/-- A chain of `add` calls, in order. -/
def AddOp.runAll : List AddOp → Args → Args
  | [], a => a
  | op :: ops, a => AddOp.runAll ops (op.run a)

/-- Whether the `add` method moves the offset past everything it appends: all of
them except `addString`, `addSerializableObjectArray` and `addNativeTypeArray`,
which move it through their inner `addU32` only. -/
def AddOp.accountsLength : AddOp → Bool
  | .addString _ => false
  | .addSerializableObjectArray _ _ => false
  | .addNativeTypeArray _ _ => false
  | _ => true

/-- Whether the getter takes a class, whose decode capability is handed the
buffer. -/
def NextOp.usesClass : NextOp → Bool
  | .nextSerializable _ => true
  | .nextSerializableObjectArray _ => true
  | _ => false

/-- The object after the call, whether it returns or throws. When it returns this
is the state `run` gives. When it throws, the fields are as the statements
executed by then left them: the getters that start with `this.nextU32()`
(`nextString`, `nextUint8Array` and the two array getters) have the offset moved
by 4 when a later step throws, and are unchanged when `nextU32` itself throws; the
other getters throw in their converter, before any assignment. Where a converter
throws is part of its model and bears on the offset only: no getter assigns the
buffer. -/
def NextOp.after (op : NextOp) (a : Args) : Args :=
  match op.run a with
  | .ok a' => a'
  | .error _ =>
    match op with
    | .nextString | .nextUint8Array | .nextSerializableObjectArray _
    | .nextNativeTypeArray _ =>
      match a.nextU32 with
      | .ok (_, a1) => a1
      | .error _ => a
    | _ => a

/-! ## The client (`lib.commonjs/web3/Client.js`) -/

/-- The table `DefaultProviderUrls` of `./ClientFactory`: the JSON-RPC URL of each
network. Its values are not part of the sources at hand. -/
structure DefaultProviderUrls where
  LABNET : String
  MAINNET : String
  LOCALNET : String
  TESTNET : String
  deriving DecidableEq, Repr

/-- The table `DefaultWsProviderUrls` of `./ClientFactory`: the websocket URL of
each network. Its values are not part of the sources at hand. -/
structure DefaultWsProviderUrls where
  LABNET : String
  MAINNET : String
  LOCALNET : String
  TESTNET : String
  deriving DecidableEq, Repr

/-- `getWsProvider(provider)`: a `switch` whose cases are tried in order with
strict equality, the first match deciding. -/
def getWsProvider (urls : DefaultProviderUrls) (wsUrls : DefaultWsProviderUrls)
    (provider : String) : String :=
  if provider = urls.LABNET then wsUrls.LABNET
  else if provider = urls.MAINNET then wsUrls.MAINNET
  else if provider = urls.LOCALNET then wsUrls.LOCALNET
  else if provider = urls.TESTNET then wsUrls.TESTNET
  else wsUrls.LOCALNET

/-- An example of the table of provider URLs, for evaluation. -/
def exampleProviderUrls : DefaultProviderUrls where
  LABNET := "https://labnet.example/api"
  MAINNET := "https://mainnet.example/api"
  LOCALNET := "http://127.0.0.1"
  TESTNET := "https://testnet.example/api"

/-- An example of the table of websocket URLs, for evaluation. -/
def exampleWsProviderUrls : DefaultWsProviderUrls where
  LABNET := "wss://labnet.example/ws"
  MAINNET := "wss://mainnet.example/ws"
  LOCALNET := "ws://127.0.0.1"
  TESTNET := "wss://testnet.example/ws"

/-! ## Facts about the primitive codec leaves -/

theorem toByte_val (n : Nat) : (toByte n).val = n % 256 := rfl

theorem toByte_val_self (b : Byte) : toByte b.val = b := by
  apply Fin.ext
  simp [toByte_val, Nat.mod_eq_of_lt b.isLt]

theorem map_toByte_map_val (l : List Byte) : (l.map Fin.val).map toByte = l := by
  induction l with
  | nil => rfl
  | cons b t ih => rw [List.map_cons, List.map_cons, ih, toByte_val_self]

theorem u32ToBytes_length (v : Nat) : (u32ToBytes v).length = 4 := rfl

theorem u64ToBytes_length (v : Nat) : (u64ToBytes v).length = 8 := rfl

theorem u8toByte_length (v : Nat) : (u8toByte v).length = 1 := rfl

theorem i32ToBytes_length (v : Int) : (i32ToBytes v).length = 4 := rfl

theorem i64ToBytes_length (v : Int) : (i64ToBytes v).length = 8 := rfl

theorem byteToU8_at (pre suf : List Byte) (v : Nat) :
    byteToU8 (pre ++ (u8toByte v ++ suf)) pre.length = .ok (v % 256) := by
  simp [byteToU8, u8toByte, toByte_val]

theorem bytesToU32_at (pre suf : List Byte) (v : Nat) :
    bytesToU32 (pre ++ (u32ToBytes v ++ suf)) pre.length = .ok (v % 4294967296) := by
  simp only [bytesToU32, u32ToBytes, List.drop_left, List.cons_append, List.nil_append,
    toByte_val, Except.ok.injEq]
  omega

theorem bytesToU64_at (pre suf : List Byte) (v : Nat) :
    bytesToU64 (pre ++ (u64ToBytes v ++ suf)) pre.length
      = .ok (v % 18446744073709551616) := by
  simp only [bytesToU64, u64ToBytes, u32ToBytes, List.drop_left, List.cons_append,
    List.nil_append, toByte_val, Except.ok.injEq]
  omega

theorem bytesToI32_at (pre suf : List Byte) (v : Int)
    (h : -2147483648 ≤ v ∧ v < 2147483648) :
    bytesToI32 (pre ++ (i32ToBytes v ++ suf)) pre.length = .ok v := by
  simp only [bytesToI32, i32ToBytes, bytesToU32_at, Except.ok.injEq]
  split <;> omega

theorem bytesToI64_at (pre suf : List Byte) (v : Int)
    (h : -9223372036854775808 ≤ v ∧ v < 9223372036854775808) :
    bytesToI64 (pre ++ (i64ToBytes v ++ suf)) pre.length = .ok v := by
  simp only [bytesToI64, i64ToBytes, bytesToU64_at, Except.ok.injEq]
  split <;> omega

theorem utf8Decode_encode (cp : Nat) (h : cp < 1114112) (hs : ¬ (55296 ≤ cp ∧ cp < 57344))
    (rest : List Byte) :
    utf8Decode 0 0 128 191 (utf8Encode cp ++ rest)
      = utf8Emit (utf16Units cp) (utf8Decode 0 0 128 191 rest) := by
  unfold utf8Encode
  by_cases h1 : cp < 128
  · have e1 : cp % 256 = cp := by omega
    have e2 : utf16Units cp = [cp] := by simp [utf16Units]; omega
    simp [h1, utf8Decode, toByte_val, e1, e2, utf8Emit]
  · by_cases h2 : cp < 2048
    · have e1 : (192 + cp / 64) % 256 = 192 + cp / 64 := by omega
      have e2 : (128 + cp % 64) % 256 = 128 + cp % 64 := by omega
      have e3 : utf16Units cp = [cp] := by simp [utf16Units]; omega
      have e4 : cp / 64 * 64 + cp % 64 = cp := by omega
      have c1 : ¬ (192 + cp / 64 < 128) := by omega
      have c2 : 194 ≤ 192 + cp / 64 ∧ 192 + cp / 64 ≤ 223 := by omega
      have c3 : 128 ≤ 128 + cp % 64 ∧ 128 + cp % 64 ≤ 191 := by omega
      simp [h1, h2, utf8Decode, toByte_val, e1, e2, e3, e4, c1, c2, c3, utf8Emit]
    · by_cases h3 : cp < 65536
      · have e1 : (224 + cp / 4096) % 256 = 224 + cp / 4096 := by omega
        have e2 : (128 + cp / 64 % 64) % 256 = 128 + cp / 64 % 64 := by omega
        have e3 : (128 + cp % 64) % 256 = 128 + cp % 64 := by omega
        have e4 : utf16Units cp = [cp] := by simp [utf16Units]; omega
        have e5 : (cp / 4096 * 64 + cp / 64 % 64) * 64 + cp % 64 = cp := by omega
        have c1 : ¬ (224 + cp / 4096 < 128) := by omega
        have c2 : ¬ (194 ≤ 224 + cp / 4096 ∧ 224 + cp / 4096 ≤ 223) := by omega
        have c3 : 224 ≤ 224 + cp / 4096 ∧ 224 + cp / 4096 ≤ 239 := by omega
        have c4 : (if 224 + cp / 4096 = 224 then 160 else 128) ≤ 128 + cp / 64 % 64
            ∧ 128 + cp / 64 % 64 ≤ (if 224 + cp / 4096 = 237 then 159 else 191) := by
          constructor <;> split <;> omega
        have c5 : 128 ≤ 128 + cp % 64 ∧ 128 + cp % 64 ≤ 191 := by omega
        simp only [h1, h2, h3, if_true, if_false, List.cons_append, List.nil_append, utf8Decode,
          toByte_val, e1, e2, e3, c1, c2, c3, c4, c5, and_self, Nat.add_sub_cancel_left,
          e4, e5, utf8Emit, one_ne_zero]
      · have e0 : (240 + cp / 262144) % 256 = 240 + cp / 262144 := by omega
        have e1 : (128 + cp / 4096 % 64) % 256 = 128 + cp / 4096 % 64 := by omega
        have e2 : (128 + cp / 64 % 64) % 256 = 128 + cp / 64 % 64 := by omega
        have e3 : (128 + cp % 64) % 256 = 128 + cp % 64 := by omega
        have e5 : ((cp / 262144 * 64 + cp / 4096 % 64) * 64 + cp / 64 % 64) * 64 + cp % 64
            = cp := by omega
        have c1 : ¬ (240 + cp / 262144 < 128) := by omega
        have c2 : ¬ (194 ≤ 240 + cp / 262144 ∧ 240 + cp / 262144 ≤ 223) := by omega
        have c3 : ¬ (224 ≤ 240 + cp / 262144 ∧ 240 + cp / 262144 ≤ 239) := by omega
        have c4 : 240 ≤ 240 + cp / 262144 ∧ 240 + cp / 262144 ≤ 244 := by omega
        have c5 : (if 240 + cp / 262144 = 240 then 144 else 128) ≤ 128 + cp / 4096 % 64
            ∧ 128 + cp / 4096 % 64 ≤ (if 240 + cp / 262144 = 244 then 143 else 191) := by
          constructor <;> split <;> omega
        have c6 : 128 ≤ 128 + cp / 64 % 64 ∧ 128 + cp / 64 % 64 ≤ 191 := by omega
        have c7 : 128 ≤ 128 + cp % 64 ∧ 128 + cp % 64 ≤ 191 := by omega
        simp only [h1, h2, h3, if_true, if_false, List.cons_append, List.nil_append, utf8Decode,
          toByte_val, e0, e1, e2, e3, c1, c2, c3, c4, c5, c6, c7, and_self,
          Nat.add_sub_cancel_left, e5, utf8Emit, one_ne_zero, OfNat.ofNat_ne_zero]
theorem utf8Decode_strToBytes (s : JSString) :
    isWellFormed s = true → utf8Decode 0 0 128 191 (strToBytes s) = .ok s := by
  induction s using strToBytes.induct with
  | case1 => intro _; rfl
  | case2 u hu => intro hw; simp [isWellFormed, hu] at hw
  | case3 u hu =>
    intro hw
    simp only [isWellFormed, isHighSurrogate, isLowSurrogate, Bool.and_eq_true, Bool.or_eq_true,
      Bool.not_eq_true', decide_eq_true_eq, Bool.or_eq_false_iff, Bool.and_eq_false_iff,
      decide_eq_false_iff_not] at hw
    have h := utf8Decode_encode u (by omega) (by omega) []
    simp only [List.append_nil] at h
    have e : utf16Units u = [u] := by
      unfold utf16Units
      rw [if_pos hw.1]
    simp only [strToBytes, hu, Bool.false_eq_true, if_false]
    rw [h, e]
    rfl
  | case4 u l rest hp ih =>
    intro hw
    simp only [Bool.and_eq_true] at hp
    simp only [isWellFormed, hp.1, hp.2, if_true, Bool.true_and] at hw
    simp only [isHighSurrogate, isLowSurrogate, Bool.and_eq_true, decide_eq_true_eq] at hp
    have h := utf8Decode_encode (pairToCodePoint u l) (by unfold pairToCodePoint; omega)
      (by unfold pairToCodePoint; omega) (strToBytes rest)
    have e : utf16Units (pairToCodePoint u l) = [u, l] := by
      unfold utf16Units pairToCodePoint
      rw [if_neg (by omega)]
      have e1 : 55296 + (65536 + (u - 55296) * 1024 + (l - 56320) - 65536) / 1024 = u := by
        omega
      have e2 : 56320 + (65536 + (u - 55296) * 1024 + (l - 56320) - 65536) % 1024 = l := by
        omega
      rw [e1, e2]
    simp only [strToBytes, isHighSurrogate, isLowSurrogate, Bool.and_eq_true, decide_eq_true_eq,
      hp, and_self, if_true, h, ih hw, utf8Emit, e, List.cons_append, List.nil_append]
  | case5 u l rest hp hu ih =>
    intro hw
    exfalso
    simp only [isWellFormed] at hw
    split at hw
    · rename_i hh
      simp only [Bool.and_eq_true] at hw
      simp [hh, hw.1] at hp
    · rename_i hh
      simp only [Bool.and_eq_true, Bool.not_eq_true'] at hw
      simp [hh, hw.1.2] at hu
  | case6 u l rest hp hu ih =>
    intro hw
    simp only [Bool.or_eq_true, not_or, Bool.not_eq_true] at hu
    simp only [isWellFormed, hu.1, Bool.false_eq_true, if_false, Bool.and_eq_true,
      decide_eq_true_eq] at hw
    have hu2 := hu
    simp only [isHighSurrogate, isLowSurrogate, Bool.and_eq_false_iff,
      decide_eq_false_iff_not] at hu2
    have h := utf8Decode_encode u (by omega) (by omega) (strToBytes (l :: rest))
    have e : utf16Units u = [u] := by
      unfold utf16Units
      rw [if_pos hw.1.1]
    simp only [strToBytes, hu.1, hu.2, Bool.false_and, Bool.or_self, Bool.false_eq_true, if_false,
      h, ih hw.2, utf8Emit, e, List.cons_append, List.nil_append]

theorem bytesToStr_strToBytes (s : JSString) (hw : isWellFormed s = true) :
    bytesToStr (strToBytes s) = .ok s :=
  utf8Decode_strToBytes s hw

theorem utf8Encode_length_pos (cp : Nat) : 1 ≤ (utf8Encode cp).length := by
  unfold utf8Encode
  split_ifs <;> simp

theorem utf8Encode_length_pair (u l : Nat) :
    (utf8Encode (pairToCodePoint u l)).length = 4 := by
  unfold utf8Encode pairToCodePoint
  rw [if_neg (by omega), if_neg (by omega), if_neg (by omega)]
  rfl

theorem strToBytes_length_ge (s : JSString) : s.length ≤ (strToBytes s).length := by
  induction s using strToBytes.induct with
  | case1 => simp
  | case2 u hu => simp [strToBytes, hu]; exact utf8Encode_length_pos _
  | case3 u hu => simp [strToBytes, hu]; exact utf8Encode_length_pos _
  | case4 u l rest hp ih =>
    simp only [strToBytes, hp, if_true, List.length_append, List.length_cons,
      utf8Encode_length_pair]
    omega
  | case5 u l rest hp hu ih =>
    have := utf8Encode_length_pos 65533
    simp only [strToBytes, hp, hu, if_true, if_false, List.length_append, List.length_cons,
      Bool.false_eq_true] at ih ⊢
    omega
  | case6 u l rest hp hu ih =>
    have := utf8Encode_length_pos u
    simp only [strToBytes, hp, hu, if_true, if_false, List.length_append, List.length_cons,
      Bool.false_eq_true] at ih ⊢
    omega

/-! ## Facts about `Args` -/

theorem Args.new_serialize (a : Args) (offset : Nat) :
    Args.new a.serialize offset = { offset := offset, serialized := a.serialized } := by
  simp only [Args.new, Args.serialize, map_toByte_map_val]

theorem Args.slice_mid (pre hdr mid suf : List Byte) :
    Args.slice (pre ++ (hdr ++ (mid ++ suf))) (pre.length + hdr.length)
      (pre.length + hdr.length + mid.length) = mid := by
  have e : pre ++ (hdr ++ (mid ++ suf)) = (pre ++ hdr ++ mid) ++ suf := by
    simp only [List.append_assoc]
  have l : pre.length + hdr.length + mid.length = (pre ++ hdr ++ mid).length := by
    simp only [List.length_append]
  have l2 : pre.length + hdr.length = (pre ++ hdr).length := by
    simp only [List.length_append]
  unfold Args.slice
  rw [e, l, List.take_left, l2, List.drop_left]

theorem Args.nextU8_at (pre suf : List Byte) (v : Nat) :
    Args.nextU8 ⟨pre.length, pre ++ (u8toByte v ++ suf)⟩
      = .ok (v % 256, ⟨pre.length + 1, pre ++ (u8toByte v ++ suf)⟩) := by
  simp only [Args.nextU8, byteToU8_at]

theorem Args.nextU32_at (pre suf : List Byte) (v : Nat) :
    Args.nextU32 ⟨pre.length, pre ++ (u32ToBytes v ++ suf)⟩
      = .ok (v % 4294967296, ⟨pre.length + 4, pre ++ (u32ToBytes v ++ suf)⟩) := by
  simp only [Args.nextU32, bytesToU32_at]

theorem Args.nextU64_at (pre suf : List Byte) (v : Nat) :
    Args.nextU64 ⟨pre.length, pre ++ (u64ToBytes v ++ suf)⟩
      = .ok (v % 18446744073709551616, ⟨pre.length + 8, pre ++ (u64ToBytes v ++ suf)⟩) := by
  simp only [Args.nextU64, bytesToU64_at]

theorem Args.nextI32_at (pre suf : List Byte) (v : Int)
    (h : -2147483648 ≤ v ∧ v < 2147483648) :
    Args.nextI32 ⟨pre.length, pre ++ (i32ToBytes v ++ suf)⟩
      = .ok (v, ⟨pre.length + 4, pre ++ (i32ToBytes v ++ suf)⟩) := by
  simp only [Args.nextI32, bytesToI32_at pre suf v h]

theorem Args.nextI64_at (pre suf : List Byte) (v : Int)
    (h : -9223372036854775808 ≤ v ∧ v < 9223372036854775808) :
    Args.nextI64 ⟨pre.length, pre ++ (i64ToBytes v ++ suf)⟩
      = .ok (v, ⟨pre.length + 8, pre ++ (i64ToBytes v ++ suf)⟩) := by
  simp only [Args.nextI64, bytesToI64_at pre suf v h]

theorem getElem?_append_cons_length (pre suf : List Byte) (x : Byte) :
    (pre ++ x :: suf)[pre.length]? = some x := by
  induction pre with
  | nil => simp
  | cons p t ih => simpa using ih

theorem Args.nextBool_at (pre suf : List Byte) (b : Bool) :
    Args.nextBool ⟨pre.length, pre ++ (u8toByte (if b then 1 else 0) ++ suf)⟩
      = (b, ⟨pre.length + 1, pre ++ (u8toByte (if b then 1 else 0) ++ suf)⟩) := by
  cases b <;>
    simp only [Args.nextBool, u8toByte, List.cons_append, List.nil_append,
      getElem?_append_cons_length] <;> rfl

theorem Args.nextUint8Array_at (pre suf arr : List Byte) (h : arr.length < 4294967296) :
    Args.nextUint8Array ⟨pre.length, pre ++ (u32ToBytes arr.length ++ (arr ++ suf))⟩
      = .ok (arr, ⟨pre.length + 4 + arr.length,
          pre ++ (u32ToBytes arr.length ++ (arr ++ suf))⟩) := by
  have s := Args.slice_mid pre (u32ToBytes arr.length) arr suf
  rw [u32ToBytes_length] at s
  simp only [Args.nextUint8Array, Args.nextU32_at, Nat.mod_eq_of_lt h, s]

theorem Args.nextString_at (pre suf : List Byte) (s : JSString)
    (hw : isWellFormed s = true) (h : (strToBytes s).length < 4294967296) :
    Args.nextString
        ⟨pre.length, pre ++ (u32ToBytes (strToBytes s).length ++ (strToBytes s ++ suf))⟩
      = .ok (s, ⟨pre.length + 4 + (strToBytes s).length,
          pre ++ (u32ToBytes (strToBytes s).length ++ (strToBytes s ++ suf))⟩) := by
  have e := Args.slice_mid pre (u32ToBytes (strToBytes s).length) (strToBytes s) suf
  rw [u32ToBytes_length] at e
  simp only [Args.nextString, Args.nextU32_at, Nat.mod_eq_of_lt h, e,
    bytesToStr_strToBytes s hw]

theorem Args.addString_of_le (s : JSString) (a : Args) (h : s.length ≤ 4294967295) :
    Args.addString s a
      = ⟨a.offset + 4, a.serialized ++ (u32ToBytes (strToBytes s).length ++ strToBytes s)⟩ := by
  simp only [Args.addString, gt_iff_lt, Nat.not_lt.mpr h, if_false, Args.addU32,
    Args.concatArrays, List.append_assoc]

theorem Args.addUint8Array_eq (arr : List Byte) (a : Args) :
    Args.addUint8Array arr a
      = ⟨a.offset + 4 + arr.length, a.serialized ++ (u32ToBytes arr.length ++ arr)⟩ := by
  simp only [Args.addUint8Array, Args.addU32, Args.concatArrays, List.append_assoc]

/-! ## Properties of the codec -/

/-- C1, integer round trip: for U8, U32, U64, I32 and I64 and every integer of the
type's range, `add<T>(v)` on a fresh `Args` followed by `next<T>()` on
`new Args(serialize())` returns `v` (and consumes exactly the written bytes). -/
theorem integer_round_trip (u8 u32 u64 : Nat) (i32 i64 : Int)
    (h8 : u8 < 256) (h32 : u32 < 4294967296) (h64 : u64 < 18446744073709551616)
    (hi32 : -2147483648 ≤ i32 ∧ i32 < 2147483648)
    (hi64 : -9223372036854775808 ≤ i64 ∧ i64 < 9223372036854775808) :
    (Args.new (Args.addU8 u8 Args.fresh).serialize 0).nextU8
        = .ok (u8, ⟨1, (Args.addU8 u8 Args.fresh).serialized⟩)
    ∧ (Args.new (Args.addU32 u32 Args.fresh).serialize 0).nextU32
        = .ok (u32, ⟨4, (Args.addU32 u32 Args.fresh).serialized⟩)
    ∧ (Args.new (Args.addU64 u64 Args.fresh).serialize 0).nextU64
        = .ok (u64, ⟨8, (Args.addU64 u64 Args.fresh).serialized⟩)
    ∧ (Args.new (Args.addI32 i32 Args.fresh).serialize 0).nextI32
        = .ok (i32, ⟨4, (Args.addI32 i32 Args.fresh).serialized⟩)
    ∧ (Args.new (Args.addI64 i64 Args.fresh).serialize 0).nextI64
        = .ok (i64, ⟨8, (Args.addI64 i64 Args.fresh).serialized⟩) := by
  have k8 := Args.nextU8_at [] [] u8
  have k32 := Args.nextU32_at [] [] u32
  have k64 := Args.nextU64_at [] [] u64
  have ki32 := Args.nextI32_at [] [] i32 hi32
  have ki64 := Args.nextI64_at [] [] i64 hi64
  simp only [List.length_nil, List.nil_append, List.append_nil, Nat.zero_add,
    Nat.mod_eq_of_lt h8, Nat.mod_eq_of_lt h32, Nat.mod_eq_of_lt h64] at k8 k32 k64 ki32 ki64
  simp only [Args.new_serialize]
  simp only [Args.addU8, Args.addU32, Args.addU64, Args.addI32,
    Args.addI64, Args.fresh, Args.new, Args.concatArrays, List.map_nil, List.nil_append,
    k8, k32, k64, ki32, ki64, and_self]

theorem integer_round_trip_witness :
    (Args.new (Args.addU8 255 Args.fresh).serialize 0).nextU8
        = .ok (255, ⟨1, (Args.addU8 255 Args.fresh).serialized⟩)
    ∧ (Args.new (Args.addU32 4294967295 Args.fresh).serialize 0).nextU32
        = .ok (4294967295, ⟨4, (Args.addU32 4294967295 Args.fresh).serialized⟩)
    ∧ (Args.new (Args.addU64 18446744073709551615 Args.fresh).serialize 0).nextU64
        = .ok (18446744073709551615,
            ⟨8, (Args.addU64 18446744073709551615 Args.fresh).serialized⟩)
    ∧ (Args.new (Args.addI32 (-2147483648) Args.fresh).serialize 0).nextI32
        = .ok (-2147483648, ⟨4, (Args.addI32 (-2147483648) Args.fresh).serialized⟩)
    ∧ (Args.new (Args.addI64 (-1) Args.fresh).serialize 0).nextI64
        = .ok (-1, ⟨8, (Args.addI64 (-1) Args.fresh).serialized⟩) :=
  integer_round_trip 255 4294967295 18446744073709551615 (-2147483648) (-1)
    (by decide) (by decide) (by decide) (by decide) (by decide)

/-- C2, U32 wire format: for `0 <= v < 2^32`, `new Args().addU32(v).serialize()` is
the four-byte little-endian encoding of `v` (`[42, 0, 0, 0]` for 42), and
`nextU32()` on a new `Args` over that buffer returns `v` and leaves the offset
at 4. -/
theorem u32_wire_format (v : Nat) (h : v < 4294967296) :
    (Args.addU32 v Args.fresh).serialize = littleEndian 4 v
    ∧ (Args.addU32 42 Args.fresh).serialize = [42, 0, 0, 0]
    ∧ (Args.new (Args.addU32 v Args.fresh).serialize 0).nextU32
        = .ok (v, { offset := 4, serialized := (Args.addU32 v Args.fresh).serialized }) := by
  refine ⟨?_, by decide, ?_⟩
  · simp only [Args.addU32, Args.fresh, Args.new, Args.concatArrays, List.map_nil,
      List.nil_append, Args.serialize, u32ToBytes, List.map_cons, toByte_val, littleEndian,
      List.cons.injEq, and_true, true_and]
    omega
  · have k := Args.nextU32_at [] [] v
    simp only [List.length_nil, List.nil_append, List.append_nil, Nat.zero_add,
      Nat.mod_eq_of_lt h] at k
    simp only [Args.new_serialize]
    simp only [Args.addU32, Args.fresh, Args.new, Args.concatArrays,
      List.map_nil, List.nil_append, k]

theorem u32_wire_format_witness :
    (Args.addU32 305419896 Args.fresh).serialize = littleEndian 4 305419896
    ∧ (Args.addU32 42 Args.fresh).serialize = [42, 0, 0, 0]
    ∧ (Args.new (Args.addU32 305419896 Args.fresh).serialize 0).nextU32
        = .ok (305419896,
            { offset := 4, serialized := (Args.addU32 305419896 Args.fresh).serialized }) :=
  u32_wire_format 305419896 (by decide)

/-- C3, string round trip: for every well-formed string whose UTF-8 encoding is
shorter than 2^32 bytes, `addString(s)` on a fresh `Args` followed by
`nextString()` on `new Args(serialize())` returns `s`. -/
theorem string_round_trip (s : JSString) (hw : isWellFormed s = true)
    (hlen : (strToBytes s).length < 4294967296) :
    (Args.new (Args.addString s Args.fresh).serialize 0).nextString
      = .ok (s, { offset := 4 + (strToBytes s).length,
                  serialized := (Args.addString s Args.fresh).serialized }) := by
  have hs : s.length ≤ 4294967295 := by
    have := strToBytes_length_ge s
    omega
  have k := Args.nextString_at [] [] s hw hlen
  simp only [List.length_nil, List.nil_append, List.append_nil, Nat.zero_add] at k
  simp only [Args.new_serialize, Args.addString_of_le s _ hs]
  simp only [Args.fresh, Args.new, List.map_nil, List.nil_append, k]

theorem string_round_trip_witness :
    (Args.new (Args.addString [104, 105] Args.fresh).serialize 0).nextString
      = .ok ([104, 105],
          ⟨4 + (strToBytes [104, 105]).length,
            (Args.addString [104, 105] Args.fresh).serialized⟩) :=
  string_round_trip [104, 105] (by decide) (by decide)

/-- C4, length-prefixed wire form: for a string whose UTF-8 encoding is shorter
than 2^32 bytes, `addString(s)` appends the four-byte encoding of the UTF-8 byte
length followed by the UTF-8 bytes and nothing else; for a byte array shorter
than 2^32, `addUint8Array(a)` appends the four-byte encoding of `a.length`
followed by the bytes of `a` and nothing else. -/
theorem length_prefixed_wire_form (a : Args) (s : JSString) (arr : List Byte)
    (hs : (strToBytes s).length < 4294967296) (harr : arr.length < 4294967296) :
    (Args.addString s a).serialize
        = a.serialize ++ littleEndian 4 (strToBytes s).length ++ (strToBytes s).map Fin.val
    ∧ fromLittleEndian (littleEndian 4 (strToBytes s).length) = (strToBytes s).length
    ∧ (Args.addUint8Array arr a).serialize
        = a.serialize ++ littleEndian 4 arr.length ++ arr.map Fin.val
    ∧ fromLittleEndian (littleEndian 4 arr.length) = arr.length := by
  have hl : s.length ≤ 4294967295 := by
    have := strToBytes_length_ge s
    omega
  have d : ∀ n : Nat, n < 4294967296 → fromLittleEndian (littleEndian 4 n) = n := by
    intro n hn
    simp only [littleEndian, fromLittleEndian]
    omega
  have e : ∀ n : Nat, (u32ToBytes n).map Fin.val = littleEndian 4 n := by
    intro n
    simp only [u32ToBytes, List.map_cons, List.map_nil, toByte_val, littleEndian,
      List.cons.injEq, and_true, true_and]
    omega
  simp only [Args.addString_of_le s a hl, Args.addUint8Array_eq, Args.serialize,
    List.map_append, e, List.append_assoc, d _ hs, d _ harr, and_self]

theorem length_prefixed_wire_form_witness :
    (Args.addString [104, 105] (Args.new [7] 1)).serialize
        = (Args.new [7] 1).serialize ++ littleEndian 4 (strToBytes [104, 105]).length
            ++ (strToBytes [104, 105]).map Fin.val
    ∧ fromLittleEndian (littleEndian 4 (strToBytes [104, 105]).length)
        = (strToBytes [104, 105]).length
    ∧ (Args.addUint8Array [1, 2, 3] (Args.new [7] 1)).serialize
        = (Args.new [7] 1).serialize ++ littleEndian 4 [(1 : Byte), 2, 3].length
            ++ [(1 : Byte), 2, 3].map Fin.val
    ∧ fromLittleEndian (littleEndian 4 [(1 : Byte), 2, 3].length)
        = [(1 : Byte), 2, 3].length :=
  length_prefixed_wire_form (Args.new [7] 1) [104, 105] [1, 2, 3] (by decide) (by decide)

/-- C5, byte-array round trip: for every byte array shorter than 2^32,
`addUint8Array(a)` on a fresh `Args` followed by `nextUint8Array()` on
`new Args(serialize())` returns `a`, and the offset afterwards is
`4 + a.length`. -/
theorem byte_array_round_trip (arr : List Byte) (h : arr.length < 4294967296) :
    (Args.new (Args.addUint8Array arr Args.fresh).serialize 0).nextUint8Array
      = .ok (arr, { offset := 4 + arr.length,
                    serialized := (Args.addUint8Array arr Args.fresh).serialized }) := by
  have k := Args.nextUint8Array_at [] [] arr h
  simp only [List.length_nil, List.nil_append, List.append_nil, Nat.zero_add] at k
  simp only [Args.new_serialize, Args.addUint8Array_eq]
  simp only [Args.fresh, Args.new, List.map_nil, List.nil_append, k]

theorem byte_array_round_trip_witness :
    (Args.new (Args.addUint8Array [0, 255, 7] Args.fresh).serialize 0).nextUint8Array
      = .ok ([0, 255, 7],
          ⟨4 + [(0 : Byte), 255, 7].length,
            (Args.addUint8Array [0, 255, 7] Args.fresh).serialized⟩) :=
  byte_array_round_trip [0, 255, 7] (by decide)

/-- C6, bool encoding and round trip: `addBool(b)` appends exactly one byte, 1 for
true and 0 for false, and `nextBool()` on `new Args(serialize())` of a fresh
`Args` after `addBool(b)` returns `b`. -/
theorem bool_encoding_round_trip (b : Bool) (a : Args) :
    (Args.addBool b a).serialize = a.serialize ++ [if b then 1 else 0]
    ∧ (Args.new (Args.addBool b Args.fresh).serialize 0).nextBool
        = (b, { offset := 1, serialized := (Args.addBool b Args.fresh).serialized }) := by
  have k := Args.nextBool_at [] [] b
  simp only [List.length_nil, List.nil_append, List.append_nil, Nat.zero_add] at k
  constructor
  · cases b <;>
      simp only [Args.addBool, Args.serialize, Args.concatArrays, u8toByte, List.map_append,
        List.map_cons, List.map_nil, toByte_val] <;> rfl
  · simp only [Args.new_serialize]
    simp only [Args.addBool, Args.fresh, Args.new, Args.concatArrays, List.map_nil,
      List.nil_append, k]

theorem Args.add_serialized (v : ArgValue) (a : Args) (h : v.inRange = true) :
    (a.add v).serialized = a.serialized ++ v.encoding := by
  cases v with
  | string s =>
    simp only [ArgValue.inRange, Bool.and_eq_true, decide_eq_true_eq] at h
    have hl : s.length ≤ 4294967295 := by
      have := strToBytes_length_ge s
      omega
    simp only [Args.add, Args.addString_of_le s a hl, ArgValue.encoding]
  | uint8Array arr => simp only [Args.add, Args.addUint8Array_eq, ArgValue.encoding]
  | _ => rfl

theorem Args.next_at (pre suf : List Byte) (v : ArgValue) (h : v.inRange = true) :
    Args.next v.type ⟨pre.length, pre ++ (v.encoding ++ suf)⟩
      = .ok (v, ⟨pre.length + v.encoding.length, pre ++ (v.encoding ++ suf)⟩) := by
  cases v with
  | u8 x =>
    simp only [ArgValue.inRange, decide_eq_true_eq] at h
    simp only [ArgValue.type, ArgValue.encoding, Args.next, Args.nextU8_at, Except.map,
      Nat.mod_eq_of_lt h, u8toByte_length]
  | bool b =>
    simp only [ArgValue.type, ArgValue.encoding, Args.next, Args.nextBool_at, u8toByte_length]
  | u32 x =>
    simp only [ArgValue.inRange, decide_eq_true_eq] at h
    simp only [ArgValue.type, ArgValue.encoding, Args.next, Args.nextU32_at, Except.map,
      Nat.mod_eq_of_lt h, u32ToBytes_length]
  | u64 x =>
    simp only [ArgValue.inRange, decide_eq_true_eq] at h
    simp only [ArgValue.type, ArgValue.encoding, Args.next, Args.nextU64_at, Except.map,
      Nat.mod_eq_of_lt h, u64ToBytes_length]
  | i32 x =>
    simp only [ArgValue.inRange, Bool.and_eq_true, decide_eq_true_eq] at h
    simp only [ArgValue.type, ArgValue.encoding, Args.next, Args.nextI32_at pre suf x h,
      Except.map, i32ToBytes_length]
  | i64 x =>
    simp only [ArgValue.inRange, Bool.and_eq_true, decide_eq_true_eq] at h
    simp only [ArgValue.type, ArgValue.encoding, Args.next, Args.nextI64_at pre suf x h,
      Except.map, i64ToBytes_length]
  | string s =>
    simp only [ArgValue.inRange, Bool.and_eq_true, decide_eq_true_eq] at h
    simp only [ArgValue.type, ArgValue.encoding, Args.next, List.append_assoc,
      Args.nextString_at pre suf s h.1 h.2, Except.map, List.length_append, u32ToBytes_length,
      Nat.add_assoc]
  | uint8Array arr =>
    simp only [ArgValue.inRange, decide_eq_true_eq] at h
    simp only [ArgValue.type, ArgValue.encoding, Args.next, List.append_assoc,
      Args.nextUint8Array_at pre suf arr h, Except.map, List.length_append, u32ToBytes_length,
      Nat.add_assoc]

theorem Args.addAll_serialized (vs : List ArgValue) (a : Args)
    (h : ∀ v ∈ vs, v.inRange = true) :
    (Args.addAll vs a).serialized = a.serialized ++ ArgValue.encodingAll vs := by
  induction vs generalizing a with
  | nil => simp only [Args.addAll, ArgValue.encodingAll, List.append_nil]
  | cons v vs ih =>
    have hv := h v (List.mem_cons_self v vs)
    have hvs : ∀ w ∈ vs, w.inRange = true := fun w hw => h w (List.mem_cons_of_mem v hw)
    simp only [Args.addAll, ih (a.add v) hvs, Args.add_serialized v a hv, ArgValue.encodingAll,
      List.append_assoc]

theorem Args.nextAll_at (vs : List ArgValue) (pre suf : List Byte)
    (h : ∀ v ∈ vs, v.inRange = true) :
    Args.nextAll (vs.map ArgValue.type) ⟨pre.length, pre ++ (ArgValue.encodingAll vs ++ suf)⟩
      = .ok (vs, ⟨pre.length + (ArgValue.encodingAll vs).length,
          pre ++ (ArgValue.encodingAll vs ++ suf)⟩) := by
  induction vs generalizing pre with
  | nil => simp only [List.map_nil, Args.nextAll, ArgValue.encodingAll, List.length_nil,
      Nat.add_zero]
  | cons v vs ih =>
    have hv := h v (List.mem_cons_self v vs)
    have hvs : ∀ w ∈ vs, w.inRange = true := fun w hw => h w (List.mem_cons_of_mem v hw)
    have k := Args.next_at pre (ArgValue.encodingAll vs ++ suf) v hv
    have i := ih (pre ++ v.encoding) hvs
    simp only [List.length_append, List.append_assoc] at i
    simp only [List.map_cons, Args.nextAll, ArgValue.encodingAll, List.append_assoc, k, i,
      List.length_append, Nat.add_assoc]

/-- C7, sequential round trip: for every finite list of typed values (U8, BOOL,
U32, U64, I32, I64, string, byte array), each within its valid range, the `add`
calls in order on a fresh `Args` followed by the `next` calls in the same order
on `new Args(serialize())` return exactly those values, and the final offset is
the length of the buffer. -/
theorem sequential_round_trip (vs : List ArgValue) (h : ∀ v ∈ vs, v.inRange = true) :
    Args.nextAll (vs.map ArgValue.type) (Args.new (Args.addAll vs Args.fresh).serialize 0)
      = .ok (vs, { offset := (Args.addAll vs Args.fresh).serialize.length,
                   serialized := (Args.addAll vs Args.fresh).serialized }) := by
  have k := Args.nextAll_at vs [] [] h
  have e := Args.addAll_serialized vs Args.fresh h
  simp only [List.length_nil, List.nil_append, List.append_nil, Nat.zero_add] at k
  simp only [Args.fresh, Args.new, List.map_nil, List.nil_append] at e
  simp only [Args.new_serialize]
  simp only [Args.serialize, List.length_map]
  simp only [Args.fresh, Args.new, List.map_nil, e, k]

theorem sequential_round_trip_witness :
    Args.nextAll
        ([ArgValue.u8 200, .bool true, .u32 70000, .u64 5000000000, .i32 (-5), .i64 (-7),
          .string [104, 105, 8364], .uint8Array [1, 2, 3], .bool false].map ArgValue.type)
        (Args.new (Args.addAll
          [ArgValue.u8 200, .bool true, .u32 70000, .u64 5000000000, .i32 (-5), .i64 (-7),
            .string [104, 105, 8364], .uint8Array [1, 2, 3], .bool false]
          Args.fresh).serialize 0)
      = .ok ([ArgValue.u8 200, .bool true, .u32 70000, .u64 5000000000, .i32 (-5), .i64 (-7),
            .string [104, 105, 8364], .uint8Array [1, 2, 3], .bool false],
          ⟨(Args.addAll
              [ArgValue.u8 200, .bool true, .u32 70000, .u64 5000000000, .i32 (-5), .i64 (-7),
                .string [104, 105, 8364], .uint8Array [1, 2, 3], .bool false]
              Args.fresh).serialize.length,
            (Args.addAll
              [ArgValue.u8 200, .bool true, .u32 70000, .u64 5000000000, .i32 (-5), .i64 (-7),
                .string [104, 105, 8364], .uint8Array [1, 2, 3], .bool false]
              Args.fresh).serialized⟩) :=
  sequential_round_trip _ (by decide)

/-- C8, length accounting (evaluation at the failing input): after
`new Args().addString("hi")` the offset is 4 while `serialize()` has 6 bytes, so
`getOffset()` is not the length of `serialize()`. -/
theorem length_accounting_addString :
    (Args.addString [104, 105] Args.fresh).getOffset = 4
    ∧ (Args.addString [104, 105] Args.fresh).serialize = [2, 0, 0, 0, 104, 105]
    ∧ (Args.addString [104, 105] Args.fresh).getOffset
        ≠ (Args.addString [104, 105] Args.fresh).serialize.length := by
  decide

/-- C10, truncated string payload (evaluation at the failing input): on a buffer
whose length prefix is 10 and which holds only 3 more bytes, `nextString()`
returns the 3-character string and moves the offset to 14, past the end of the
7-byte buffer; no error is raised. -/
theorem truncated_string_payload_returns :
    (Args.new [10, 0, 0, 0, 97, 98, 99] 0).nextString
      = .ok ([97, 98, 99], ⟨14, [10, 0, 0, 0, 97, 98, 99]⟩) := by
  rfl

/-! ## Array getters and setters -/

theorem Args.nextU32_of_bytesToU32 (a : Args) (L : Nat)
    (h : bytesToU32 a.serialized a.offset = .ok L) :
    a.nextU32 = .ok (L, ⟨a.offset + 4, a.serialized⟩) := by
  simp only [Args.nextU32, h]

theorem Args.nextNativeTypeArray_eq (type : TypedArrayUnit) (a : Args) (L : Nat)
    (h : bytesToU32 a.serialized a.offset = .ok L) :
    a.nextNativeTypeArray type
      = if a.offset + 4 + L > a.serialized.length then .error .arrayLength
        else if L = 0 then .ok ([], ⟨a.offset + 4, a.serialized⟩)
        else
          match bytesToNativeTypeArray
              (Args.slice a.serialized (a.offset + 4) (a.offset + 4 + L)) type with
          | .ok value => .ok (value, ⟨a.offset + 4 + L, a.serialized⟩)
          | .error e => .error e := by
  simp only [Args.nextNativeTypeArray, Args.nextU32_of_bytesToU32 a L h, Args.getNextData]

theorem Args.nextSerializableObjectArray_eq {α : Type} (Clazz : ISerializable α) (a : Args)
    (L : Nat) (h : bytesToU32 a.serialized a.offset = .ok L) :
    a.nextSerializableObjectArray Clazz
      = if a.offset + 4 + L > a.serialized.length then .error .arrayLength
        else if L = 0 then .ok ([], ⟨a.offset + 4, a.serialized⟩)
        else
          match bytesToSerializableObjectArray
              (Args.slice a.serialized (a.offset + 4) (a.offset + 4 + L)) Clazz with
          | .ok value => .ok (value, ⟨a.offset + 4 + L, a.serialized⟩)
          | .error e => .error e := by
  simp only [Args.nextSerializableObjectArray, Args.nextU32_of_bytesToU32 a L h,
    Args.getNextData]

/-- C11, truncated fixed-width decode (evaluation at the failing input): on an
empty buffer with offset 0, `nextBool()` returns `false` and moves the offset to
1; it does not raise, while `nextU8()` on the same state does. -/
theorem nextBool_past_end_returns :
    (Args.new [] 0).nextBool = (false, ⟨1, []⟩)
    ∧ (Args.new [] 0).nextU8 = .error .truncatedBuffer := by
  exact ⟨rfl, rfl⟩

/-- C12, array decode bound check: when the four-byte prefix at offset `o` decodes
to `L`, `nextNativeTypeArray(tag)` and `nextSerializableObjectArray(Clazz)` fail
if and only if `o + 4 + L` exceeds the buffer length or (for `L > 0`) the element
decoding of the sub-range fails; when they return and `L > 0`, the value is what
the element decoding of exactly the sub-range `[o+4, o+4+L)` gives and the offset
afterwards is `o + 4 + L`. -/
theorem array_decode_bound_check {α : Type} (Clazz : ISerializable α) (type : TypedArrayUnit)
    (a : Args) (L : Nat) (h : bytesToU32 a.serialized a.offset = .ok L) :
    ((∃ e, a.nextNativeTypeArray type = .error e) ↔
        (a.offset + 4 + L > a.serialized.length ∨
          (L ≠ 0 ∧ ∃ e, bytesToNativeTypeArray
            (Args.slice a.serialized (a.offset + 4) (a.offset + 4 + L)) type = .error e)))
    ∧ (∀ value a', a.nextNativeTypeArray type = .ok (value, a') → L ≠ 0 →
        bytesToNativeTypeArray
            (Args.slice a.serialized (a.offset + 4) (a.offset + 4 + L)) type = .ok value
          ∧ a' = ⟨a.offset + 4 + L, a.serialized⟩)
    ∧ ((∃ e, a.nextSerializableObjectArray Clazz = .error e) ↔
        (a.offset + 4 + L > a.serialized.length ∨
          (L ≠ 0 ∧ ∃ e, bytesToSerializableObjectArray
            (Args.slice a.serialized (a.offset + 4) (a.offset + 4 + L)) Clazz = .error e)))
    ∧ (∀ value a', a.nextSerializableObjectArray Clazz = .ok (value, a') → L ≠ 0 →
        bytesToSerializableObjectArray
            (Args.slice a.serialized (a.offset + 4) (a.offset + 4 + L)) Clazz = .ok value
          ∧ a' = ⟨a.offset + 4 + L, a.serialized⟩) := by
  rw [Args.nextNativeTypeArray_eq type a L h, Args.nextSerializableObjectArray_eq Clazz a L h]
  by_cases hb : a.offset + 4 + L > a.serialized.length
  · simp only [hb, if_true, true_or, iff_true, Except.error.injEq, exists_eq', reduceCtorEq,
      false_implies, implies_true, and_self]
  · by_cases hz : L = 0
    · subst hz
      have hb2 : ¬ a.serialized.length < a.offset + 4 := by omega
      simp [hb2]
    · simp only [hb, hz, if_false, false_or, ne_eq, not_false_eq_true, true_and, forall_const]
      refine ⟨?_, ?_, ?_, ?_⟩
      · cases bytesToNativeTypeArray
          (Args.slice a.serialized (a.offset + 4) (a.offset + 4 + L)) type <;> simp
      · intro value a' hv
        cases hd : bytesToNativeTypeArray
          (Args.slice a.serialized (a.offset + 4) (a.offset + 4 + L)) type <;>
          simp only [hd, reduceCtorEq, Except.ok.injEq, Prod.mk.injEq] at hv
        exact ⟨by rw [hv.1], hv.2.symm⟩
      · cases bytesToSerializableObjectArray
          (Args.slice a.serialized (a.offset + 4) (a.offset + 4 + L)) Clazz <;> simp
      · intro value a' hv
        cases hd : bytesToSerializableObjectArray
          (Args.slice a.serialized (a.offset + 4) (a.offset + 4 + L)) Clazz <;>
          simp only [hd, reduceCtorEq, Except.ok.injEq, Prod.mk.injEq] at hv
        exact ⟨by rw [hv.1], hv.2.symm⟩

theorem array_decode_bound_check_witness :
    bytesToU32 (Args.new [4, 0, 0, 0, 7, 0, 0, 0] 0).serialized
        (Args.new [4, 0, 0, 0, 7, 0, 0, 0] 0).offset = .ok 4
    ∧ (bytesToNativeTypeArray (Args.slice (Args.new [4, 0, 0, 0, 7, 0, 0, 0] 0).serialized
          ((Args.new [4, 0, 0, 0, 7, 0, 0, 0] 0).offset + 4)
          ((Args.new [4, 0, 0, 0, 7, 0, 0, 0] 0).offset + 4 + 4)) .U32 = .ok [7]
        ∧ (⟨8, [4, 0, 0, 0, 7, 0, 0, 0]⟩ : Args)
            = ⟨(Args.new [4, 0, 0, 0, 7, 0, 0, 0] 0).offset + 4 + 4,
                (Args.new [4, 0, 0, 0, 7, 0, 0, 0] 0).serialized⟩)
    ∧ (bytesToSerializableObjectArray
          (Args.slice (Args.new [4, 0, 0, 0, 7, 0, 0, 0] 0).serialized
            ((Args.new [4, 0, 0, 0, 7, 0, 0, 0] 0).offset + 4)
            ((Args.new [4, 0, 0, 0, 7, 0, 0, 0] 0).offset + 4 + 4)) byteObject
          = .ok [7, 0, 0, 0]
        ∧ (⟨8, [4, 0, 0, 0, 7, 0, 0, 0]⟩ : Args)
            = ⟨(Args.new [4, 0, 0, 0, 7, 0, 0, 0] 0).offset + 4 + 4,
                (Args.new [4, 0, 0, 0, 7, 0, 0, 0] 0).serialized⟩) :=
  ⟨rfl,
    (array_decode_bound_check byteObject .U32 (Args.new [4, 0, 0, 0, 7, 0, 0, 0] 0) 4 rfl).2.1
      [7] ⟨8, [4, 0, 0, 0, 7, 0, 0, 0]⟩ rfl (by decide),
    (array_decode_bound_check byteObject .U32 (Args.new [4, 0, 0, 0, 7, 0, 0, 0] 0) 4
      rfl).2.2.2 [7, 0, 0, 0] ⟨8, [4, 0, 0, 0, 7, 0, 0, 0]⟩ rfl (by decide)⟩

/-- C13, empty array decode: on a state with at least 4 bytes remaining whose length
prefix decodes to 0, `nextNativeTypeArray(tag)` for every tag and
`nextSerializableObjectArray(Clazz)` for every class return the empty sequence,
whatever the element decoder is, and move the offset by exactly 4. -/
theorem empty_array_decode {α : Type} (Clazz : ISerializable α) (type : TypedArrayUnit)
    (a : Args) (h4 : a.offset + 4 ≤ a.serialized.length)
    (h : bytesToU32 a.serialized a.offset = .ok 0) :
    a.nextNativeTypeArray type = .ok ([], ⟨a.offset + 4, a.serialized⟩)
    ∧ a.nextSerializableObjectArray Clazz = .ok ([], ⟨a.offset + 4, a.serialized⟩) := by
  have hb : ¬ (a.offset + 4 + 0 > a.serialized.length) := by omega
  rw [Args.nextNativeTypeArray_eq type a 0 h, Args.nextSerializableObjectArray_eq Clazz a 0 h]
  simp only [hb, if_false, if_true, and_self]

theorem empty_array_decode_witness :
    (Args.new [9, 0, 0, 0, 0, 5] 1).nextNativeTypeArray .STRING
        = .ok ([], ⟨(Args.new [9, 0, 0, 0, 0, 5] 1).offset + 4,
            (Args.new [9, 0, 0, 0, 0, 5] 1).serialized⟩)
    ∧ (Args.new [9, 0, 0, 0, 0, 5] 1).nextSerializableObjectArray failingObject
        = .ok ([], ⟨(Args.new [9, 0, 0, 0, 0, 5] 1).offset + 4,
            (Args.new [9, 0, 0, 0, 0, 5] 1).serialized⟩) :=
  empty_array_decode failingObject .STRING (Args.new [9, 0, 0, 0, 0, 5] 1) (by decide) rfl

theorem Args.addNativeTypeArray_eq (type : TypedArrayUnit) (arg : List type.Elem) (a : Args) :
    Args.addNativeTypeArray type arg a
      = ⟨a.offset + 4, a.serialized ++ (u32ToBytes (nativeTypeArrayToBytes type arg).length
          ++ nativeTypeArrayToBytes type arg)⟩ := by
  simp only [Args.addNativeTypeArray, Args.addU32, Args.concatArrays, List.append_assoc]

theorem Args.addSerializableObjectArray_eq {α : Type} (Clazz : ISerializable α) (arg : List α)
    (a : Args) :
    Args.addSerializableObjectArray Clazz arg a
      = ⟨a.offset + 4,
          a.serialized ++ (u32ToBytes (serializableObjectsArrayToBytes Clazz arg).length
            ++ serializableObjectsArrayToBytes Clazz arg)⟩ := by
  simp only [Args.addSerializableObjectArray, Args.addU32, Args.concatArrays,
    List.append_assoc]

/-- C14, empty array encode: for every tag, `addNativeTypeArray([], T)` on a fresh
`Args`, and for every class `addSerializableObjectArray([])` on a fresh `Args`,
give a `serialize()` of exactly the four bytes of the length 0, and the matching
`next` method on that buffer returns the empty sequence. -/
theorem empty_array_encode {α : Type} (Clazz : ISerializable α) (type : TypedArrayUnit) :
    (Args.addNativeTypeArray type [] Args.fresh).serialize = [0, 0, 0, 0]
    ∧ (Args.addSerializableObjectArray Clazz [] Args.fresh).serialize = [0, 0, 0, 0]
    ∧ [0, 0, 0, 0] = littleEndian 4 0
    ∧ (Args.new (Args.addNativeTypeArray type [] Args.fresh).serialize 0).nextNativeTypeArray
          type = .ok ([], ⟨4, (Args.addNativeTypeArray type [] Args.fresh).serialized⟩)
    ∧ (Args.new (Args.addSerializableObjectArray Clazz [] Args.fresh).serialize
          0).nextSerializableObjectArray Clazz
        = .ok ([], ⟨4, (Args.addSerializableObjectArray Clazz [] Args.fresh).serialized⟩) := by
  have e1 : Args.addNativeTypeArray type [] Args.fresh = ⟨4, [0, 0, 0, 0]⟩ := by
    simp only [Args.addNativeTypeArray_eq, nativeTypeArrayToBytes]
    rfl
  have e2 : Args.addSerializableObjectArray Clazz [] Args.fresh = ⟨4, [0, 0, 0, 0]⟩ := by
    simp only [Args.addSerializableObjectArray_eq, serializableObjectsArrayToBytes]
    rfl
  have k := empty_array_decode Clazz type ⟨0, [0, 0, 0, 0]⟩ (by decide) rfl
  simp only [Args.new_serialize, e1, e2]
  exact ⟨rfl, rfl, rfl, k.1, k.2⟩

theorem nativeTypeArrayToBytes_U32_length (xs : List Nat) :
    (nativeTypeArrayToBytes .U32 xs).length = 4 * xs.length := by
  induction xs with
  | nil => rfl
  | cons x xs ih =>
    simp only [nativeTypeArrayToBytes, nativeTypeToBytes, List.length_append,
      u32ToBytes_length, ih, List.length_cons]
    omega

theorem bytesToNativeType_U32_at (x : Nat) (hx : x < 4294967296) (suf : List Byte) :
    bytesToNativeType .U32 (u32ToBytes x ++ suf) = .ok (x, suf) := by
  have k := bytesToU32_at [] suf x
  simp only [List.nil_append, List.length_nil, Nat.mod_eq_of_lt hx] at k
  have d : List.drop 4 (u32ToBytes x ++ suf) = suf := by
    have := List.drop_left (u32ToBytes x) suf
    rw [u32ToBytes_length] at this
    exact this
  simp only [bytesToNativeType, k, d]

theorem bytesToNativeTypeArrayLoop_U32 (xs : List Nat) (hx : ∀ x ∈ xs, x < 4294967296) :
    ∀ fuel, (nativeTypeArrayToBytes .U32 xs).length ≤ fuel →
      bytesToNativeTypeArrayLoop .U32 fuel (nativeTypeArrayToBytes .U32 xs) = .ok xs := by
  induction xs with
  | nil => intro fuel _; cases fuel <;> rfl
  | cons x xs ih =>
    intro fuel hf
    have hx0 := hx x (List.mem_cons_self x xs)
    have hxs : ∀ y ∈ xs, y < 4294967296 := fun y hy => hx y (List.mem_cons_of_mem x hy)
    simp only [nativeTypeArrayToBytes, nativeTypeToBytes, List.length_append,
      u32ToBytes_length] at hf
    cases fuel with
    | zero => omega
    | succ fuel =>
      have e : nativeTypeArrayToBytes .U32 (x :: xs)
          = toByte x :: ([toByte (x / 256), toByte (x / 65536), toByte (x / 16777216)]
              ++ nativeTypeArrayToBytes .U32 xs) := rfl
      have b := bytesToNativeType_U32_at x hx0 (nativeTypeArrayToBytes .U32 xs)
      have b2 : bytesToNativeType .U32
          (toByte x :: ([toByte (x / 256), toByte (x / 65536), toByte (x / 16777216)]
              ++ nativeTypeArrayToBytes .U32 xs))
          = .ok (x, nativeTypeArrayToBytes .U32 xs) := b
      rw [e]
      simp only [bytesToNativeTypeArrayLoop, b2, ih hxs fuel (by omega)]

/-- C15, native U32 array round trip: for every list of integers in `[0, 2^32)` whose
encoded size `4 * |xs|` is below 2^32, `addNativeTypeArray(xs, U32)` on a fresh
`Args` writes the four-byte prefix `4 * |xs|` followed by the concatenated
four-byte encodings of the elements, and `nextNativeTypeArray(U32)` on
`new Args(serialize())` returns `xs`. -/
theorem native_u32_array_round_trip (xs : List Nat) (hx : ∀ x ∈ xs, x < 4294967296)
    (hlen : 4 * xs.length < 4294967296) :
    (Args.addNativeTypeArray .U32 xs Args.fresh).serialize
        = littleEndian 4 (4 * xs.length) ++ (xs.map (littleEndian 4)).flatten
    ∧ (Args.new (Args.addNativeTypeArray .U32 xs Args.fresh).serialize 0).nextNativeTypeArray
          .U32
        = .ok (xs, ⟨4 + 4 * xs.length, (Args.addNativeTypeArray .U32 xs Args.fresh).serialized⟩) := by
  have e : ∀ n : Nat, (u32ToBytes n).map Fin.val = littleEndian 4 n := by
    intro n
    simp only [u32ToBytes, List.map_cons, List.map_nil, toByte_val, littleEndian,
      List.cons.injEq, and_true, true_and]
    omega
  have c : ∀ ys : List Nat, (nativeTypeArrayToBytes .U32 ys).map Fin.val
      = (ys.map (littleEndian 4)).flatten := by
    intro ys
    induction ys with
    | nil => rfl
    | cons y ys ih =>
      simp only [nativeTypeArrayToBytes, nativeTypeToBytes, List.map_append, e, ih,
        List.map_cons, List.flatten_cons]
  have hl := nativeTypeArrayToBytes_U32_length xs
  have ha : Args.addNativeTypeArray .U32 xs Args.fresh
      = ⟨4, u32ToBytes (4 * xs.length) ++ nativeTypeArrayToBytes .U32 xs⟩ := by
    rw [Args.addNativeTypeArray_eq, hl]
    rfl
  constructor
  · rw [ha]
    simp only [Args.serialize, List.map_append, e, c]
  · rw [Args.new_serialize, ha]
    have hu : bytesToU32 (u32ToBytes (4 * xs.length) ++ nativeTypeArrayToBytes .U32 xs) 0
        = .ok (4 * xs.length) := by
      have k := bytesToU32_at [] (nativeTypeArrayToBytes .U32 xs) (4 * xs.length)
      simp only [List.nil_append, List.length_nil, Nat.mod_eq_of_lt hlen] at k
      exact k
    rw [Args.nextNativeTypeArray_eq .U32 _ (4 * xs.length) hu]
    have hb : ¬ (0 + 4 + 4 * xs.length
        > (u32ToBytes (4 * xs.length) ++ nativeTypeArrayToBytes .U32 xs).length) := by
      rw [List.length_append, u32ToBytes_length, hl]
      omega
    simp only [hb, if_false]
    by_cases hz : 4 * xs.length = 0
    · have hnil : xs = [] := by
        cases xs with
        | nil => rfl
        | cons y ys => simp only [List.length_cons] at hz; omega
      subst hnil
      rfl
    · have sl := Args.slice_mid [] (u32ToBytes (4 * xs.length))
        (nativeTypeArrayToBytes .U32 xs) []
      simp only [List.nil_append, List.length_nil, List.append_nil, u32ToBytes_length, hl]
        at sl
      have dl := bytesToNativeTypeArrayLoop_U32 xs hx (4 * xs.length) (by rw [hl])
      simp only [hz, if_false, sl, bytesToNativeTypeArray, hl, dl, Nat.zero_add]

theorem native_u32_array_round_trip_witness :
    ((Args.addNativeTypeArray .U32 [1, 2, 3] Args.fresh).serialize
        = littleEndian 4 (4 * [1, 2, 3].length) ++ ([1, 2, 3].map (littleEndian 4)).flatten
      ∧ (Args.new (Args.addNativeTypeArray .U32 [1, 2, 3] Args.fresh).serialize
            0).nextNativeTypeArray .U32
          = .ok ([1, 2, 3], ⟨4 + 4 * [1, 2, 3].length,
              (Args.addNativeTypeArray .U32 [1, 2, 3] Args.fresh).serialized⟩))
    ∧ ((Args.addNativeTypeArray .U32 [] Args.fresh).serialize
        = littleEndian 4 (4 * ([] : List Nat).length)
            ++ (([] : List Nat).map (littleEndian 4)).flatten
      ∧ (Args.new (Args.addNativeTypeArray .U32 [] Args.fresh).serialize
            0).nextNativeTypeArray .U32
          = .ok ([], ⟨4 + 4 * ([] : List Nat).length,
              (Args.addNativeTypeArray .U32 [] Args.fresh).serialized⟩)) :=
  ⟨native_u32_array_round_trip [1, 2, 3] (by decide) (by decide),
    native_u32_array_round_trip [] (by decide) (by decide)⟩

/-- C16, serializable value encoding: `addSerializable(x)` appends exactly the bytes
returned by `x.serialize()`, with no length prefix and no other bytes, and moves
the offset by the length of those bytes. -/
theorem serializable_value_encoding {α : Type} (Clazz : ISerializable α) (x : α) (a : Args) :
    (Args.addSerializable Clazz x a).serialize = a.serialize ++ (Clazz.serialize x).map Fin.val
    ∧ (Args.addSerializable Clazz x a).getOffset
        = a.getOffset + (Clazz.serialize x).length := by
  simp only [Args.addSerializable, Args.serialize, Args.concatArrays, List.map_append,
    Args.getOffset, and_self]

theorem serializableObjectsArrayToBytes_eq {α : Type} (Clazz : ISerializable α) (xs : List α) :
    serializableObjectsArrayToBytes Clazz xs = (xs.map Clazz.serialize).flatten := by
  induction xs with
  | nil => rfl
  | cons x xs ih =>
    simp only [serializableObjectsArrayToBytes, ih, List.map_cons, List.flatten_cons]

theorem serializableObjectsArrayToBytes_length {α : Type} (Clazz : ISerializable α)
    (xs : List α) :
    (serializableObjectsArrayToBytes Clazz xs).length
      = (xs.map (fun x => (Clazz.serialize x).length)).sum := by
  induction xs with
  | nil => rfl
  | cons x xs ih =>
    simp only [serializableObjectsArrayToBytes, List.length_append, ih, List.map_cons,
      List.sum_cons]

/-- C17, serializable array encoding: for every list of serializable values whose
concatenated serialized size is below 2^32, `addSerializableObjectArray(xs)`
appends a four-byte prefix whose decoded value is the sum of the lengths of
`x.serialize()`, followed by exactly the concatenation of `x.serialize()` for `x`
in `xs`, in order. -/
theorem serializable_array_encoding {α : Type} (Clazz : ISerializable α) (xs : List α)
    (a : Args) (h : (xs.map (fun x => (Clazz.serialize x).length)).sum < 4294967296) :
    (Args.addSerializableObjectArray Clazz xs a).serialize
        = a.serialize ++ littleEndian 4 (xs.map (fun x => (Clazz.serialize x).length)).sum
            ++ ((xs.map Clazz.serialize).flatten).map Fin.val
    ∧ fromLittleEndian (littleEndian 4 (xs.map (fun x => (Clazz.serialize x).length)).sum)
        = (xs.map (fun x => (Clazz.serialize x).length)).sum := by
  have e : ∀ n : Nat, (u32ToBytes n).map Fin.val = littleEndian 4 n := by
    intro n
    simp only [u32ToBytes, List.map_cons, List.map_nil, toByte_val, littleEndian,
      List.cons.injEq, and_true, true_and]
    omega
  have d : ∀ n : Nat, n < 4294967296 → fromLittleEndian (littleEndian 4 n) = n := by
    intro n hn
    simp only [littleEndian, fromLittleEndian]
    omega
  refine ⟨?_, d _ h⟩
  rw [Args.addSerializableObjectArray_eq, serializableObjectsArrayToBytes_length,
    serializableObjectsArrayToBytes_eq]
  simp only [Args.serialize, List.map_append, e, List.append_assoc]

theorem serializable_array_encoding_witness :
    (Args.addSerializableObjectArray byteObject [7, 8, 9] (Args.new [1] 1)).serialize
        = (Args.new [1] 1).serialize
            ++ littleEndian 4 ([7, 8, 9].map (fun x => (byteObject.serialize x).length)).sum
            ++ (([7, 8, 9].map byteObject.serialize).flatten).map Fin.val
    ∧ fromLittleEndian
          (littleEndian 4 ([7, 8, 9].map (fun x => (byteObject.serialize x).length)).sum)
        = ([7, 8, 9].map (fun x => (byteObject.serialize x).length)).sum :=
  serializable_array_encoding byteObject [7, 8, 9] (Args.new [1] 1) (by decide)

/-! ## The cursor -/

theorem Args.nextU8_ok (a : Args) (v : Nat) (a' : Args) (h : a.nextU8 = .ok (v, a')) :
    a' = ⟨a.offset + 1, a.serialized⟩ := by
  unfold Args.nextU8 at h
  split at h
  · simp only [Except.ok.injEq, Prod.mk.injEq] at h
    exact h.2.symm
  · simp only [reduceCtorEq] at h

theorem Args.nextU32_ok (a : Args) (v : Nat) (a' : Args) (h : a.nextU32 = .ok (v, a')) :
    bytesToU32 a.serialized a.offset = .ok v ∧ a' = ⟨a.offset + 4, a.serialized⟩ := by
  unfold Args.nextU32 at h
  split at h
  · rename_i value hv
    simp only [Except.ok.injEq, Prod.mk.injEq] at h
    exact ⟨by rw [hv, h.1], h.2.symm⟩
  · simp only [reduceCtorEq] at h

theorem Args.nextU64_ok (a : Args) (v : Nat) (a' : Args) (h : a.nextU64 = .ok (v, a')) :
    a' = ⟨a.offset + 8, a.serialized⟩ := by
  unfold Args.nextU64 at h
  split at h
  · simp only [Except.ok.injEq, Prod.mk.injEq] at h
    exact h.2.symm
  · simp only [reduceCtorEq] at h

theorem Args.nextI32_ok (a : Args) (v : Int) (a' : Args) (h : a.nextI32 = .ok (v, a')) :
    a' = ⟨a.offset + 4, a.serialized⟩ := by
  unfold Args.nextI32 at h
  split at h
  · simp only [Except.ok.injEq, Prod.mk.injEq] at h
    exact h.2.symm
  · simp only [reduceCtorEq] at h

theorem Args.nextI64_ok (a : Args) (v : Int) (a' : Args) (h : a.nextI64 = .ok (v, a')) :
    a' = ⟨a.offset + 8, a.serialized⟩ := by
  unfold Args.nextI64 at h
  split at h
  · simp only [Except.ok.injEq, Prod.mk.injEq] at h
    exact h.2.symm
  · simp only [reduceCtorEq] at h

theorem Args.nextF32_ok (a : Args) (v : Nat) (a' : Args) (h : a.nextF32 = .ok (v, a')) :
    a' = ⟨a.offset + 4, a.serialized⟩ := by
  unfold Args.nextF32 at h
  split at h
  · simp only [Except.ok.injEq, Prod.mk.injEq] at h
    exact h.2.symm
  · simp only [reduceCtorEq] at h

theorem Args.nextF64_ok (a : Args) (v : Nat) (a' : Args) (h : a.nextF64 = .ok (v, a')) :
    a' = ⟨a.offset + 8, a.serialized⟩ := by
  unfold Args.nextF64 at h
  split at h
  · simp only [Except.ok.injEq, Prod.mk.injEq] at h
    exact h.2.symm
  · simp only [reduceCtorEq] at h

theorem Args.nextString_ok (a : Args) (v : JSString) (a' : Args)
    (h : a.nextString = .ok (v, a')) :
    ∃ L, bytesToU32 a.serialized a.offset = .ok L ∧ a' = ⟨a.offset + 4 + L, a.serialized⟩ := by
  unfold Args.nextString at h
  split at h
  · simp only [reduceCtorEq] at h
  · rename_i length a1 hu
    obtain ⟨hL, rfl⟩ := Args.nextU32_ok a length a1 hu
    refine ⟨length, hL, ?_⟩
    simp only at h
    split at h
    · simp only [Except.ok.injEq, Prod.mk.injEq] at h
      exact h.2.symm
    · simp only [reduceCtorEq] at h

theorem Args.nextUint8Array_ok (a : Args) (v : List Byte) (a' : Args)
    (h : a.nextUint8Array = .ok (v, a')) :
    ∃ L, bytesToU32 a.serialized a.offset = .ok L ∧ a' = ⟨a.offset + 4 + L, a.serialized⟩ := by
  unfold Args.nextUint8Array at h
  split at h
  · simp only [reduceCtorEq] at h
  · rename_i length a1 hu
    obtain ⟨hL, rfl⟩ := Args.nextU32_ok a length a1 hu
    refine ⟨length, hL, ?_⟩
    simp only [Except.ok.injEq, Prod.mk.injEq] at h
    exact h.2.symm

theorem Args.nextNativeTypeArray_ok (type : TypedArrayUnit) (a : Args) (v : List type.Elem)
    (a' : Args) (h : a.nextNativeTypeArray type = .ok (v, a')) :
    ∃ L, bytesToU32 a.serialized a.offset = .ok L ∧ a' = ⟨a.offset + 4 + L, a.serialized⟩ := by
  cases hu : bytesToU32 a.serialized a.offset with
  | error e => simp only [Args.nextNativeTypeArray, Args.nextU32, hu, reduceCtorEq] at h
  | ok L =>
    refine ⟨L, rfl, ?_⟩
    rw [Args.nextNativeTypeArray_eq type a L hu] at h
    split at h
    · simp only [reduceCtorEq] at h
    · split at h
      · rename_i hz
        simp only [Except.ok.injEq, Prod.mk.injEq] at h
        rw [← h.2, hz]
      · split at h
        · simp only [Except.ok.injEq, Prod.mk.injEq] at h
          exact h.2.symm
        · simp only [reduceCtorEq] at h

theorem Args.nextSerializableObjectArray_ok {α : Type} (Clazz : ISerializable α) (a : Args)
    (v : List α) (a' : Args) (h : a.nextSerializableObjectArray Clazz = .ok (v, a')) :
    ∃ L, bytesToU32 a.serialized a.offset = .ok L ∧ a' = ⟨a.offset + 4 + L, a.serialized⟩ := by
  cases hu : bytesToU32 a.serialized a.offset with
  | error e =>
    simp only [Args.nextSerializableObjectArray, Args.nextU32, hu, reduceCtorEq] at h
  | ok L =>
    refine ⟨L, rfl, ?_⟩
    rw [Args.nextSerializableObjectArray_eq Clazz a L hu] at h
    split at h
    · simp only [reduceCtorEq] at h
    · split at h
      · rename_i hz
        simp only [Except.ok.injEq, Prod.mk.injEq] at h
        rw [← h.2, hz]
      · split at h
        · simp only [Except.ok.injEq, Prod.mk.injEq] at h
          exact h.2.symm
        · simp only [reduceCtorEq] at h

theorem map_snd_ok {β : Type} (r : Except ArgsError (β × Args)) (a' : Args)
    (h : r.map Prod.snd = .ok a') : ∃ v, r = .ok (v, a') := by
  cases r with
  | error e => simp only [Except.map, reduceCtorEq] at h
  | ok p =>
    obtain ⟨v, s⟩ := p
    simp only [Except.map, Except.ok.injEq] at h
    exact ⟨v, by rw [h]⟩

/-- C19, counterexample: `nextSerializable` with a decode capability that returns
offset 0, called at offset 2, leaves the offset at 0. -/
theorem nextSerializable_moves_cursor_back :
    (Args.new [1, 2, 3] 2).nextSerializable rewindingObject = .ok ((), ⟨0, [1, 2, 3]⟩)
    ∧ ¬ ((Args.new [1, 2, 3] 2).offset ≤ (⟨0, [1, 2, 3]⟩ : Args).offset) := by
  exact ⟨rfl, by decide⟩

/-- C19, amended: every `add` method, and every `next` method other than
`nextSerializable` that returns normally, leaves an offset greater than or equal
to the offset before it; `nextSerializable` sets the offset to exactly the offset
its decode capability returns. -/
theorem cursor_monotone_except_nextSerializable (a : Args) :
    (∀ op : AddOp, a.offset ≤ (op.run a).offset)
    ∧ (∀ (op : NextOp) (a' : Args), op.isNextSerializable = false → op.run a = .ok a' →
        a.offset ≤ a'.offset)
    ∧ (∀ (α : Type) (Clazz : ISerializable α) (v : α) (next : Nat),
        deserializeObj a.serialized a.offset Clazz = .ok (v, next) →
          a.nextSerializable Clazz = .ok (v, ⟨next, a.serialized⟩)) := by
  refine ⟨?_, ?_, ?_⟩
  · intro op
    cases op <;>
      simp only [AddOp.run, Args.addU8, Args.addBool, Args.addU32, Args.addU64, Args.addI32,
        Args.addI64, Args.addF32, Args.addF64, Args.addUint8Array, Args.addString,
        Args.addSerializable, Args.addSerializableObjectArray, Args.addNativeTypeArray] <;>
      omega
  · intro op a' hn h
    cases op with
    | nextSerializable Clazz => simp only [NextOp.isNextSerializable, reduceCtorEq] at hn
    | nextBool =>
      simp only [NextOp.run, Args.nextBool, Except.ok.injEq] at h
      rw [← h]
      exact Nat.le_add_right _ _
    | nextString =>
      obtain ⟨v, hv⟩ := map_snd_ok _ a' h
      obtain ⟨L, _, rfl⟩ := Args.nextString_ok a v a' hv
      exact Nat.le_trans (Nat.le_add_right _ 4) (Nat.le_add_right _ L)
    | nextUint8Array =>
      obtain ⟨v, hv⟩ := map_snd_ok _ a' h
      obtain ⟨L, _, rfl⟩ := Args.nextUint8Array_ok a v a' hv
      exact Nat.le_trans (Nat.le_add_right _ 4) (Nat.le_add_right _ L)
    | nextSerializableObjectArray Clazz =>
      obtain ⟨v, hv⟩ := map_snd_ok _ a' h
      obtain ⟨L, _, rfl⟩ := Args.nextSerializableObjectArray_ok Clazz a v a' hv
      exact Nat.le_trans (Nat.le_add_right _ 4) (Nat.le_add_right _ L)
    | nextNativeTypeArray type =>
      obtain ⟨v, hv⟩ := map_snd_ok _ a' h
      obtain ⟨L, _, rfl⟩ := Args.nextNativeTypeArray_ok type a v a' hv
      exact Nat.le_trans (Nat.le_add_right _ 4) (Nat.le_add_right _ L)
    | nextU8 =>
      obtain ⟨v, hv⟩ := map_snd_ok _ a' h
      rw [Args.nextU8_ok a v a' hv]
      exact Nat.le_add_right _ _
    | nextU32 =>
      obtain ⟨v, hv⟩ := map_snd_ok _ a' h
      rw [(Args.nextU32_ok a v a' hv).2]
      exact Nat.le_add_right _ _
    | nextU64 =>
      obtain ⟨v, hv⟩ := map_snd_ok _ a' h
      rw [Args.nextU64_ok a v a' hv]
      exact Nat.le_add_right _ _
    | nextI32 =>
      obtain ⟨v, hv⟩ := map_snd_ok _ a' h
      rw [Args.nextI32_ok a v a' hv]
      exact Nat.le_add_right _ _
    | nextI64 =>
      obtain ⟨v, hv⟩ := map_snd_ok _ a' h
      rw [Args.nextI64_ok a v a' hv]
      exact Nat.le_add_right _ _
    | nextF32 =>
      obtain ⟨v, hv⟩ := map_snd_ok _ a' h
      rw [Args.nextF32_ok a v a' hv]
      exact Nat.le_add_right _ _
    | nextF64 =>
      obtain ⟨v, hv⟩ := map_snd_ok _ a' h
      rw [Args.nextF64_ok a v a' hv]
      exact Nat.le_add_right _ _
  · intro α Clazz v next hd
    simp only [Args.nextSerializable, hd]

theorem cursor_monotone_except_nextSerializable_witness :
    (Args.new [2, 0, 0, 0, 104, 105] 0).offset
        ≤ ((AddOp.addString [104, 105]).run (Args.new [2, 0, 0, 0, 104, 105] 0)).offset
    ∧ (Args.new [2, 0, 0, 0, 104, 105] 0).offset ≤ (⟨6, [2, 0, 0, 0, 104, 105]⟩ : Args).offset
    ∧ (Args.new [2, 0, 0, 0, 104, 105] 0).nextSerializable byteObject
        = .ok (2, ⟨1, (Args.new [2, 0, 0, 0, 104, 105] 0).serialized⟩) :=
  ⟨(cursor_monotone_except_nextSerializable (Args.new [2, 0, 0, 0, 104, 105] 0)).1
      (AddOp.addString [104, 105]),
    (cursor_monotone_except_nextSerializable (Args.new [2, 0, 0, 0, 104, 105] 0)).2.1
      NextOp.nextString ⟨6, [2, 0, 0, 0, 104, 105]⟩ rfl rfl,
    (cursor_monotone_except_nextSerializable (Args.new [2, 0, 0, 0, 104, 105] 0)).2.2
      Nat byteObject 2 1 rfl⟩

/-! ## Fixed-width getters -/

theorem Args.slice_eq (arr : List Byte) (off w : Nat) :
    Args.slice arr off (off + w) = (arr.drop off).take w := by
  unfold Args.slice
  exact (List.take_drop off w arr).symm

theorem byteToU8_front (arr : List Byte) (off : Nat) :
    byteToU8 arr off = byteToU8 (Args.slice arr off (off + 1)) 0 := by
  rw [Args.slice_eq]
  unfold byteToU8
  rw [List.drop_zero]
  generalize arr.drop off = l
  rcases l with _ | ⟨b0, t⟩ <;> rfl

theorem bytesToU32_front (arr : List Byte) (off : Nat) :
    bytesToU32 arr off = bytesToU32 (Args.slice arr off (off + 4)) 0 := by
  rw [Args.slice_eq]
  unfold bytesToU32
  rw [List.drop_zero]
  generalize arr.drop off = l
  rcases l with _ | ⟨b0, _ | ⟨b1, _ | ⟨b2, _ | ⟨b3, t⟩⟩⟩⟩ <;> rfl

theorem bytesToU64_front (arr : List Byte) (off : Nat) :
    bytesToU64 arr off = bytesToU64 (Args.slice arr off (off + 8)) 0 := by
  rw [Args.slice_eq]
  unfold bytesToU64
  rw [List.drop_zero]
  generalize arr.drop off = l
  rcases l with _ | ⟨b0, _ | ⟨b1, _ | ⟨b2, _ | ⟨b3, _ | ⟨b4, _ | ⟨b5, _ | ⟨b6, _ | ⟨b7, t⟩⟩⟩⟩⟩⟩⟩⟩ <;>
    rfl

theorem getElem?_front (arr : List Byte) (off : Nat) :
    arr[off]? = (Args.slice arr off (off + 1))[0]? := by
  rw [Args.slice_eq]
  have e : arr[off]? = (arr.drop off)[0]? := by
    rw [List.getElem?_drop, Nat.add_zero]
  rw [e]
  generalize arr.drop off = l
  rcases l with _ | ⟨b0, t⟩
  · rfl
  · simp only [List.take_succ_cons, List.getElem?_cons_zero]

/-- The result of a fixed-width getter is the result of the same getter on the
bytes `[offset, offset + width)` alone, with the offset moved by the width. -/
theorem FixedWidthOp.run_eq (op : FixedWidthOp) (a : Args) :
    op.run a
      = match op.run ⟨0, Args.slice a.serialized a.offset (a.offset + op.width)⟩ with
        | .ok r => .ok (r.1, ⟨a.offset + op.width, a.serialized⟩)
        | .error e => .error e := by
  cases op
  · simp only [FixedWidthOp.run, FixedWidthOp.width, Args.nextU8]
    rw [byteToU8_front a.serialized a.offset]
    cases byteToU8 (Args.slice a.serialized a.offset (a.offset + 1)) 0 <;> rfl
  · simp only [FixedWidthOp.run, FixedWidthOp.width, Args.nextBool]
    rw [getElem?_front a.serialized a.offset]
  · simp only [FixedWidthOp.run, FixedWidthOp.width, Args.nextU32]
    rw [bytesToU32_front a.serialized a.offset]
    cases bytesToU32 (Args.slice a.serialized a.offset (a.offset + 4)) 0 <;> rfl
  · simp only [FixedWidthOp.run, FixedWidthOp.width, Args.nextI32, bytesToI32]
    rw [bytesToU32_front a.serialized a.offset]
    cases bytesToU32 (Args.slice a.serialized a.offset (a.offset + 4)) 0 <;> rfl
  · simp only [FixedWidthOp.run, FixedWidthOp.width, Args.nextF32, bytesToF32]
    rw [bytesToU32_front a.serialized a.offset]
    cases bytesToU32 (Args.slice a.serialized a.offset (a.offset + 4)) 0 <;> rfl
  · simp only [FixedWidthOp.run, FixedWidthOp.width, Args.nextU64]
    rw [bytesToU64_front a.serialized a.offset]
    cases bytesToU64 (Args.slice a.serialized a.offset (a.offset + 8)) 0 <;> rfl
  · simp only [FixedWidthOp.run, FixedWidthOp.width, Args.nextI64, bytesToI64]
    rw [bytesToU64_front a.serialized a.offset]
    cases bytesToU64 (Args.slice a.serialized a.offset (a.offset + 8)) 0 <;> rfl
  · simp only [FixedWidthOp.run, FixedWidthOp.width, Args.nextF64, bytesToF64]
    rw [bytesToU64_front a.serialized a.offset]
    cases bytesToU64 (Args.slice a.serialized a.offset (a.offset + 8)) 0 <;> rfl

/-- C20, fixed-width consumption: when `nextU32`, `nextI32` or `nextF32` returns
normally the offset has moved by exactly 4, for `nextU64`, `nextI64`, `nextF64`
by exactly 8, for `nextU8` and `nextBool` by exactly 1; and the returned value is
determined by the bytes in `[offset, offset + width)` alone: on any state with
the same bytes in its window the method returns the same value. -/
theorem fixed_width_consumption (op : FixedWidthOp) (a b : Args) (v : op.Value) (a' : Args)
    (h : op.run a = .ok (v, a'))
    (hb : Args.slice b.serialized b.offset (b.offset + op.width)
        = Args.slice a.serialized a.offset (a.offset + op.width)) :
    a' = ⟨a.offset + op.width, a.serialized⟩
    ∧ op.run b = .ok (v, ⟨b.offset + op.width, b.serialized⟩) := by
  rw [FixedWidthOp.run_eq op a] at h
  rw [FixedWidthOp.run_eq op b, hb]
  cases hr : op.run ⟨0, Args.slice a.serialized a.offset (a.offset + op.width)⟩ with
  | error e => simp only [hr, reduceCtorEq] at h
  | ok r =>
    simp only [hr, Except.ok.injEq, Prod.mk.injEq] at h
    obtain ⟨h1, h2⟩ := h
    subst h1
    exact ⟨h2.symm, rfl⟩

theorem fixed_width_consumption_witness :
    (⟨4, [42, 1, 0, 0]⟩ : Args)
        = ⟨(Args.new [42, 1, 0, 0] 0).offset + FixedWidthOp.nextU32.width,
            (Args.new [42, 1, 0, 0] 0).serialized⟩
    ∧ FixedWidthOp.nextU32.run (Args.new [9, 42, 1, 0, 0, 7] 1)
        = .ok (298, ⟨(Args.new [9, 42, 1, 0, 0, 7] 1).offset + FixedWidthOp.nextU32.width,
            (Args.new [9, 42, 1, 0, 0, 7] 1).serialized⟩) :=
  fixed_width_consumption FixedWidthOp.nextU32 (Args.new [42, 1, 0, 0] 0)
    (Args.new [9, 42, 1, 0, 0, 7] 1) 298 ⟨4, [42, 1, 0, 0]⟩ rfl rfl

/-! ## The cursor stays in the buffer -/

theorem byteToU8_bound (arr : List Byte) (off v : Nat) (h : byteToU8 arr off = .ok v) :
    off + 1 ≤ arr.length := by
  unfold byteToU8 at h
  split at h
  · rename_i b t hd
    have l := congrArg List.length hd
    simp only [List.length_drop, List.length_cons] at l
    omega
  · simp only [reduceCtorEq] at h

theorem bytesToU32_bound (arr : List Byte) (off v : Nat) (h : bytesToU32 arr off = .ok v) :
    off + 4 ≤ arr.length := by
  unfold bytesToU32 at h
  split at h
  · rename_i b0 b1 b2 b3 t hd
    have l := congrArg List.length hd
    simp only [List.length_drop, List.length_cons] at l
    omega
  · simp only [reduceCtorEq] at h

theorem bytesToU64_bound (arr : List Byte) (off v : Nat) (h : bytesToU64 arr off = .ok v) :
    off + 8 ≤ arr.length := by
  unfold bytesToU64 at h
  split at h
  · rename_i b0 b1 b2 b3 b4 b5 b6 b7 t hd
    have l := congrArg List.length hd
    simp only [List.length_drop, List.length_cons] at l
    omega
  · simp only [reduceCtorEq] at h

theorem Args.nextU8_bound (a : Args) (v : Nat) (a' : Args) (h : a.nextU8 = .ok (v, a')) :
    a.offset + 1 ≤ a.serialized.length := by
  unfold Args.nextU8 at h
  split at h
  · rename_i value hv
    exact byteToU8_bound _ _ _ hv
  · simp only [reduceCtorEq] at h

theorem Args.nextU64_bound (a : Args) (v : Nat) (a' : Args) (h : a.nextU64 = .ok (v, a')) :
    a.offset + 8 ≤ a.serialized.length := by
  unfold Args.nextU64 at h
  split at h
  · rename_i value hv
    exact bytesToU64_bound _ _ _ hv
  · simp only [reduceCtorEq] at h

theorem Args.nextI32_bound (a : Args) (v : Int) (a' : Args) (h : a.nextI32 = .ok (v, a')) :
    a.offset + 4 ≤ a.serialized.length := by
  unfold Args.nextI32 bytesToI32 at h
  cases hu : bytesToU32 a.serialized a.offset with
  | ok u => exact bytesToU32_bound _ _ _ hu
  | error e => simp only [hu, reduceCtorEq] at h

theorem Args.nextI64_bound (a : Args) (v : Int) (a' : Args) (h : a.nextI64 = .ok (v, a')) :
    a.offset + 8 ≤ a.serialized.length := by
  unfold Args.nextI64 bytesToI64 at h
  cases hu : bytesToU64 a.serialized a.offset with
  | ok u => exact bytesToU64_bound _ _ _ hu
  | error e => simp only [hu, reduceCtorEq] at h

theorem Args.nextF32_bound (a : Args) (v : Nat) (a' : Args) (h : a.nextF32 = .ok (v, a')) :
    a.offset + 4 ≤ a.serialized.length := by
  unfold Args.nextF32 bytesToF32 at h
  cases hu : bytesToU32 a.serialized a.offset with
  | ok u => exact bytesToU32_bound _ _ _ hu
  | error e => simp only [hu, reduceCtorEq] at h

theorem Args.nextF64_bound (a : Args) (v : Nat) (a' : Args) (h : a.nextF64 = .ok (v, a')) :
    a.offset + 8 ≤ a.serialized.length := by
  unfold Args.nextF64 bytesToF64 at h
  cases hu : bytesToU64 a.serialized a.offset with
  | ok u => exact bytesToU64_bound _ _ _ hu
  | error e => simp only [hu, reduceCtorEq] at h

theorem Args.nextNativeTypeArray_bound (type : TypedArrayUnit) (a : Args)
    (v : List type.Elem) (a' : Args) (h : a.nextNativeTypeArray type = .ok (v, a')) :
    a'.offset ≤ a'.serialized.length := by
  obtain ⟨L, hu, rfl⟩ := Args.nextNativeTypeArray_ok type a v a' h
  rw [Args.nextNativeTypeArray_eq type a L hu] at h
  split at h
  · simp only [reduceCtorEq] at h
  · rename_i hb
    exact Nat.not_lt.mp hb

theorem Args.nextSerializableObjectArray_bound {α : Type} (Clazz : ISerializable α) (a : Args)
    (v : List α) (a' : Args) (h : a.nextSerializableObjectArray Clazz = .ok (v, a')) :
    a'.offset ≤ a'.serialized.length := by
  obtain ⟨L, hu, rfl⟩ := Args.nextSerializableObjectArray_ok Clazz a v a' h
  rw [Args.nextSerializableObjectArray_eq Clazz a L hu] at h
  split at h
  · simp only [reduceCtorEq] at h
  · rename_i hb
    exact Nat.not_lt.mp hb

/-- C18, counterexample: from states with `offset <= length`, `nextBool()` on an
empty buffer, `nextString()` and `nextUint8Array()` on a 7-byte buffer whose
prefix announces 10 bytes, and `nextSerializable` with a decode capability that
returns an offset past the end, all return normally and leave the offset beyond
the buffer length. -/
theorem cursor_bound_broken_by_getters :
    ((Args.new [] 0).offset ≤ (Args.new [] 0).serialized.length
      ∧ (Args.new [] 0).nextBool = (false, ⟨1, []⟩)
      ∧ ¬ ((Args.new [] 0).nextBool.2.offset ≤ (Args.new [] 0).nextBool.2.serialized.length))
    ∧ ((Args.new [10, 0, 0, 0, 97, 98, 99] 0).offset
          ≤ (Args.new [10, 0, 0, 0, 97, 98, 99] 0).serialized.length
      ∧ (Args.new [10, 0, 0, 0, 97, 98, 99] 0).nextString
          = .ok ([97, 98, 99], ⟨14, [10, 0, 0, 0, 97, 98, 99]⟩)
      ∧ (Args.new [10, 0, 0, 0, 97, 98, 99] 0).nextUint8Array
          = .ok ([97, 98, 99], ⟨14, [10, 0, 0, 0, 97, 98, 99]⟩)
      ∧ ¬ (14 ≤ [10, 0, 0, 0, 97, 98, 99].length))
    ∧ ((Args.new [1, 2, 3] 0).offset ≤ (Args.new [1, 2, 3] 0).serialized.length
      ∧ (Args.new [1, 2, 3] 0).nextSerializable overshootingObject
          = .ok ((), ⟨4, [1, 2, 3]⟩)
      ∧ ¬ (4 ≤ [1, 2, 3].length)) := by
  refine ⟨⟨by decide, rfl, by decide⟩, ⟨by decide, rfl, rfl, by decide⟩,
    by decide, rfl, by decide⟩

/-- C18, amended: from a state with `offset <= length(buffer)`, every `add` method,
and every `next` method other than `nextBool`, `nextString`, `nextUint8Array`
and `nextSerializable` that returns normally, leaves a state with
`offset <= length(buffer)`; `nextSerializable` leaves the buffer as it is and the
offset at what its decode capability returns. -/
theorem cursor_bound_invariant_checked (a : Args) (hinv : a.offset ≤ a.serialized.length) :
    (∀ op : AddOp, (op.run a).offset ≤ (op.run a).serialized.length)
    ∧ (∀ (op : NextOp) (a' : Args), op.isBoundChecked = true → op.run a = .ok a' →
        a'.offset ≤ a'.serialized.length)
    ∧ (∀ (α : Type) (Clazz : ISerializable α) (v : α) (a' : Args),
        a.nextSerializable Clazz = .ok (v, a') →
          deserializeObj a.serialized a.offset Clazz = .ok (v, a'.offset)
            ∧ a'.serialized = a.serialized) := by
  refine ⟨?_, ?_, ?_⟩
  · intro op
    cases op <;>
      simp only [AddOp.run, Args.addU8, Args.addBool, Args.addU32, Args.addU64, Args.addI32,
        Args.addI64, Args.addF32, Args.addF64, Args.addUint8Array, Args.addString,
        Args.addSerializable, Args.addSerializableObjectArray, Args.addNativeTypeArray,
        Args.concatArrays, List.length_append, u8toByte_length, u32ToBytes_length,
        u64ToBytes_length, i32ToBytes_length, i64ToBytes_length, f32ToBytes, f64ToBytes] <;>
      omega
  · intro op a' hc h
    cases op with
    | nextBool => simp only [NextOp.isBoundChecked, reduceCtorEq] at hc
    | nextString => simp only [NextOp.isBoundChecked, reduceCtorEq] at hc
    | nextUint8Array => simp only [NextOp.isBoundChecked, reduceCtorEq] at hc
    | nextSerializable Clazz => simp only [NextOp.isBoundChecked, reduceCtorEq] at hc
    | nextSerializableObjectArray Clazz =>
      obtain ⟨v, hv⟩ := map_snd_ok _ a' h
      exact Args.nextSerializableObjectArray_bound Clazz a v a' hv
    | nextNativeTypeArray type =>
      obtain ⟨v, hv⟩ := map_snd_ok _ a' h
      exact Args.nextNativeTypeArray_bound type a v a' hv
    | nextU8 =>
      obtain ⟨v, hv⟩ := map_snd_ok _ a' h
      rw [Args.nextU8_ok a v a' hv]
      exact Args.nextU8_bound a v a' hv
    | nextU32 =>
      obtain ⟨v, hv⟩ := map_snd_ok _ a' h
      obtain ⟨hu, rfl⟩ := Args.nextU32_ok a v a' hv
      exact bytesToU32_bound _ _ _ hu
    | nextU64 =>
      obtain ⟨v, hv⟩ := map_snd_ok _ a' h
      rw [Args.nextU64_ok a v a' hv]
      exact Args.nextU64_bound a v a' hv
    | nextI32 =>
      obtain ⟨v, hv⟩ := map_snd_ok _ a' h
      rw [Args.nextI32_ok a v a' hv]
      exact Args.nextI32_bound a v a' hv
    | nextI64 =>
      obtain ⟨v, hv⟩ := map_snd_ok _ a' h
      rw [Args.nextI64_ok a v a' hv]
      exact Args.nextI64_bound a v a' hv
    | nextF32 =>
      obtain ⟨v, hv⟩ := map_snd_ok _ a' h
      rw [Args.nextF32_ok a v a' hv]
      exact Args.nextF32_bound a v a' hv
    | nextF64 =>
      obtain ⟨v, hv⟩ := map_snd_ok _ a' h
      rw [Args.nextF64_ok a v a' hv]
      exact Args.nextF64_bound a v a' hv
  · intro α Clazz v a' h
    unfold Args.nextSerializable at h
    split at h
    · rename_i r hr
      simp only [Except.ok.injEq, Prod.mk.injEq] at h
      obtain ⟨h1, h2⟩ := h
      subst h2
      subst h1
      exact ⟨hr, rfl⟩
    · simp only [reduceCtorEq] at h

theorem cursor_bound_invariant_checked_witness :
    (Args.new [2, 0, 0, 0, 104, 105] 0).offset
        ≤ (Args.new [2, 0, 0, 0, 104, 105] 0).serialized.length
    ∧ ((AddOp.addString [104, 105]).run (Args.new [2, 0, 0, 0, 104, 105] 0)).offset
        ≤ ((AddOp.addString [104, 105]).run
            (Args.new [2, 0, 0, 0, 104, 105] 0)).serialized.length
    ∧ (⟨4, [2, 0, 0, 0, 104, 105]⟩ : Args).offset
        ≤ (⟨4, [2, 0, 0, 0, 104, 105]⟩ : Args).serialized.length
    ∧ (deserializeObj (Args.new [2, 0, 0, 0, 104, 105] 0).serialized
          (Args.new [2, 0, 0, 0, 104, 105] 0).offset byteObject
          = .ok (2, (⟨1, [2, 0, 0, 0, 104, 105]⟩ : Args).offset)
        ∧ (⟨1, [2, 0, 0, 0, 104, 105]⟩ : Args).serialized
          = (Args.new [2, 0, 0, 0, 104, 105] 0).serialized) :=
  ⟨by decide,
    (cursor_bound_invariant_checked (Args.new [2, 0, 0, 0, 104, 105] 0) (by decide)).1
      (AddOp.addString [104, 105]),
    (cursor_bound_invariant_checked (Args.new [2, 0, 0, 0, 104, 105] 0) (by decide)).2.1
      NextOp.nextU32 ⟨4, [2, 0, 0, 0, 104, 105]⟩ rfl rfl,
    (cursor_bound_invariant_checked (Args.new [2, 0, 0, 0, 104, 105] 0) (by decide)).2.2
      Nat byteObject 2 ⟨1, [2, 0, 0, 0, 104, 105]⟩ rfl⟩

/-! ## Frame properties -/

theorem AddOp.run_prefix (op : AddOp) (a : Args) :
    a.serialized <+: (op.run a).serialized := by
  cases op <;>
    simp only [AddOp.run, Args.addU8, Args.addBool, Args.addU32, Args.addU64, Args.addI32,
      Args.addI64, Args.addF32, Args.addF64, Args.addUint8Array, Args.addString,
      Args.addSerializable, Args.addSerializableObjectArray, Args.addNativeTypeArray,
      Args.concatArrays, List.append_assoc, List.prefix_append]

theorem AddOp.runAll_prefix (ops : List AddOp) (a : Args) :
    a.serialized <+: (AddOp.runAll ops a).serialized := by
  induction ops generalizing a with
  | nil => exact List.prefix_refl _
  | cons op ops ih => exact List.IsPrefix.trans (AddOp.run_prefix op a) (ih (op.run a))

/-- C21, append-only encoding: for every state and every `add` method, the buffer
before the call is a prefix of the buffer after it, for the field and for what
`serialize()` returns, and so it is after any chain of `add` calls; the value the
method returns is the object it was called on, in its state after the call (the
embedding of `return this`). -/
theorem append_only_encoding (op : AddOp) (ops : List AddOp) (a : Args) :
    a.serialized <+: (op.run a).serialized
    ∧ a.serialize <+: (op.run a).serialize
    ∧ a.serialize <+: (AddOp.runAll ops a).serialize := by
  have m : ∀ b c : Args, b.serialized <+: c.serialized → b.serialize <+: c.serialize := by
    intro b c hbc
    obtain ⟨t, ht⟩ := hbc
    refine ⟨t.map Fin.val, ?_⟩
    simp only [Args.serialize, ← ht, List.map_append]
  exact ⟨AddOp.run_prefix op a, m _ _ (AddOp.run_prefix op a),
    m _ _ (AddOp.runAll_prefix ops a)⟩

theorem NextOp.run_serialized (op : NextOp) (a a' : Args) (hc : op.usesClass = false)
    (h : op.run a = .ok a') : a'.serialized = a.serialized := by
  cases op with
  | nextSerializable Clazz => simp only [NextOp.usesClass, reduceCtorEq] at hc
  | nextSerializableObjectArray Clazz => simp only [NextOp.usesClass, reduceCtorEq] at hc
  | nextBool =>
    simp only [NextOp.run, Args.nextBool, Except.ok.injEq] at h
    rw [← h]
  | nextString =>
    obtain ⟨v, hv⟩ := map_snd_ok _ a' h
    obtain ⟨L, _, rfl⟩ := Args.nextString_ok a v a' hv
    rfl
  | nextUint8Array =>
    obtain ⟨v, hv⟩ := map_snd_ok _ a' h
    obtain ⟨L, _, rfl⟩ := Args.nextUint8Array_ok a v a' hv
    rfl
  | nextNativeTypeArray type =>
    obtain ⟨v, hv⟩ := map_snd_ok _ a' h
    obtain ⟨L, _, rfl⟩ := Args.nextNativeTypeArray_ok type a v a' hv
    rfl
  | nextU8 =>
    obtain ⟨v, hv⟩ := map_snd_ok _ a' h
    rw [Args.nextU8_ok a v a' hv]
  | nextU32 =>
    obtain ⟨v, hv⟩ := map_snd_ok _ a' h
    rw [(Args.nextU32_ok a v a' hv).2]
  | nextU64 =>
    obtain ⟨v, hv⟩ := map_snd_ok _ a' h
    rw [Args.nextU64_ok a v a' hv]
  | nextI32 =>
    obtain ⟨v, hv⟩ := map_snd_ok _ a' h
    rw [Args.nextI32_ok a v a' hv]
  | nextI64 =>
    obtain ⟨v, hv⟩ := map_snd_ok _ a' h
    rw [Args.nextI64_ok a v a' hv]
  | nextF32 =>
    obtain ⟨v, hv⟩ := map_snd_ok _ a' h
    rw [Args.nextF32_ok a v a' hv]
  | nextF64 =>
    obtain ⟨v, hv⟩ := map_snd_ok _ a' h
    rw [Args.nextF64_ok a v a' hv]

theorem NextOp.after_serialized (op : NextOp) (a : Args) (hc : op.usesClass = false) :
    (op.after a).serialized = a.serialized := by
  have hu : (match a.nextU32 with
      | .ok (_, a1) => a1
      | .error _ => a).serialized = a.serialized := by
    cases hn : a.nextU32 with
    | error e => rfl
    | ok r =>
      obtain ⟨v, a1⟩ := r
      rw [(Args.nextU32_ok a v a1 hn).2]
  unfold NextOp.after
  cases hr : op.run a with
  | ok a' => exact NextOp.run_serialized op a a' hc hr
  | error e =>
    cases op <;> first
      | exact hu
      | rfl

/-- C22, decoding does not modify the buffer: for every state and each of
`nextString`, `nextU8`, `nextU32`, `nextU64`, `nextBool`, `nextI32`, `nextI64`,
`nextF32`, `nextF64`, `nextUint8Array` and `nextNativeTypeArray`, whether the
call returns or throws, `serialize()` afterwards equals `serialize()` before; the
state a normal return gives is that state after the call. -/
theorem decoding_keeps_buffer (op : NextOp) (a : Args) (hc : op.usesClass = false) :
    (op.after a).serialize = a.serialize
    ∧ (∀ a', op.run a = .ok a' → op.after a = a' ∧ a'.serialize = a.serialize)
    ∧ (∀ e, op.run a = .error e → (op.after a).serialize = a.serialize) := by
  have k := NextOp.after_serialized op a hc
  refine ⟨by simp only [Args.serialize, k], ?_, ?_⟩
  · intro a' h
    refine ⟨by simp only [NextOp.after, h], ?_⟩
    simp only [Args.serialize, NextOp.run_serialized op a a' hc h]
  · intro e _
    simp only [Args.serialize, k]

theorem decoding_keeps_buffer_witness :
    ((NextOp.nextNativeTypeArray .U32).after (Args.new [6, 0, 0, 0, 1, 0, 0, 0, 2, 0] 0)).serialize
        = (Args.new [6, 0, 0, 0, 1, 0, 0, 0, 2, 0] 0).serialize
    ∧ (NextOp.nextNativeTypeArray .U32).after (Args.new [6, 0, 0, 0, 1, 0, 0, 0, 2, 0] 0)
        = ⟨4, [6, 0, 0, 0, 1, 0, 0, 0, 2, 0]⟩
    ∧ (NextOp.nextNativeTypeArray .U32).run (Args.new [6, 0, 0, 0, 1, 0, 0, 0, 2, 0] 0)
        = .error .truncatedBuffer :=
  ⟨(decoding_keeps_buffer (NextOp.nextNativeTypeArray .U32)
      (Args.new [6, 0, 0, 0, 1, 0, 0, 0, 2, 0] 0) rfl).1, rfl, rfl⟩

/-- C23, construction round trip: for every list of byte values (each in 0..255) and
every offset, `new Args(bs, o)` has `serialize() = bs` and `getOffset() = o`;
with no arguments, `serialize() = []` and `getOffset() = 0`. -/
theorem construction_round_trip (bs : List Nat) (o : Nat) (h : ∀ b ∈ bs, b < 256) :
    (Args.new bs o).serialize = bs
    ∧ (Args.new bs o).getOffset = o
    ∧ Args.fresh.serialize = []
    ∧ Args.fresh.getOffset = 0 := by
  refine ⟨?_, rfl, rfl, rfl⟩
  simp only [Args.new, Args.serialize, List.map_map]
  induction bs with
  | nil => rfl
  | cons b t ih =>
    have hb := h b (List.mem_cons_self b t)
    have ht : ∀ c ∈ t, c < 256 := fun c hc => h c (List.mem_cons_of_mem b hc)
    simp only [List.map_cons, Function.comp_apply, toByte_val, Nat.mod_eq_of_lt hb, ih ht]

theorem construction_round_trip_witness :
    (Args.new [0, 255, 42] 2).serialize = [0, 255, 42]
    ∧ (Args.new [0, 255, 42] 2).getOffset = 2
    ∧ Args.fresh.serialize = []
    ∧ Args.fresh.getOffset = 0 :=
  construction_round_trip [0, 255, 42] 2 (by decide)

theorem AddOp.run_accounts (op : AddOp) (a : Args) (h : op.accountsLength = true)
    (ha : a.offset = a.serialized.length) :
    (op.run a).offset = (op.run a).serialized.length := by
  cases op <;>
    first
    | (simp only [AddOp.accountsLength, reduceCtorEq] at h; done)
    | (simp only [AddOp.run, Args.addU8, Args.addBool, Args.addU32, Args.addU64, Args.addI32,
        Args.addI64, Args.addF32, Args.addF64, Args.addUint8Array, Args.addSerializable,
        Args.concatArrays, List.length_append, u8toByte_length, u32ToBytes_length,
        u64ToBytes_length, i32ToBytes_length, i64ToBytes_length, f32ToBytes, f64ToBytes, ha]
       try omega)

theorem AddOp.runAll_accounts (ops : List AddOp) (a : Args)
    (h : ∀ op ∈ ops, op.accountsLength = true) (ha : a.offset = a.serialized.length) :
    (AddOp.runAll ops a).offset = (AddOp.runAll ops a).serialized.length := by
  induction ops generalizing a with
  | nil => exact ha
  | cons op ops ih =>
    have h0 := h op (List.mem_cons_self op ops)
    have hs : ∀ o ∈ ops, o.accountsLength = true := fun o ho => h o (List.mem_cons_of_mem op ho)
    exact ih (op.run a) hs (AddOp.run_accounts op a h0 ha)

/-- C24, restricted length accounting: after every finite sequence of `addU8`,
`addBool`, `addU32`, `addU64`, `addI32`, `addI64`, `addF32`, `addF64`,
`addUint8Array` and `addSerializable` calls on a fresh `Args`, `getOffset()` is
the length of `serialize()`; whereas `addString`, `addNativeTypeArray` and
`addSerializableObjectArray` move the offset by exactly 4 whatever they append. -/
theorem restricted_length_accounting (ops : List AddOp)
    (h : ∀ op ∈ ops, op.accountsLength = true) :
    (AddOp.runAll ops Args.fresh).getOffset = (AddOp.runAll ops Args.fresh).serialize.length
    ∧ (∀ (a : Args) (s : JSString), (a.addString s).getOffset = a.getOffset + 4)
    ∧ (∀ (a : Args) (type : TypedArrayUnit) (xs : List type.Elem),
        (a.addNativeTypeArray type xs).getOffset = a.getOffset + 4)
    ∧ (∀ (a : Args) (α : Type) (Clazz : ISerializable α) (xs : List α),
        (a.addSerializableObjectArray Clazz xs).getOffset = a.getOffset + 4) := by
  refine ⟨?_, ?_, ?_, ?_⟩
  · have k := AddOp.runAll_accounts ops Args.fresh h rfl
    simp only [Args.getOffset, Args.serialize, List.length_map, k]
  · intro a s
    simp only [Args.addString, Args.addU32, Args.getOffset]
  · intro a type xs
    simp only [Args.addNativeTypeArray, Args.addU32, Args.getOffset]
  · intro a α Clazz xs
    simp only [Args.addSerializableObjectArray, Args.addU32, Args.getOffset]

theorem restricted_length_accounting_witness :
    (AddOp.runAll [AddOp.addU8 7, AddOp.addBool true, AddOp.addU64 5, AddOp.addI32 (-1),
        AddOp.addF64 0, AddOp.addUint8Array [1, 2, 3], AddOp.addSerializable byteObject 9]
        Args.fresh).getOffset
      = (AddOp.runAll [AddOp.addU8 7, AddOp.addBool true, AddOp.addU64 5, AddOp.addI32 (-1),
          AddOp.addF64 0, AddOp.addUint8Array [1, 2, 3], AddOp.addSerializable byteObject 9]
          Args.fresh).serialize.length
    ∧ (Args.fresh.addString [104, 105]).getOffset = Args.fresh.getOffset + 4
    ∧ (Args.fresh.addNativeTypeArray .U32 [1, 2, 3]).getOffset = Args.fresh.getOffset + 4
    ∧ (Args.fresh.addSerializableObjectArray byteObject [1, 2, 3]).getOffset
        = Args.fresh.getOffset + 4 :=
  have w := restricted_length_accounting
    [AddOp.addU8 7, AddOp.addBool true, AddOp.addU64 5, AddOp.addI32 (-1),
      AddOp.addF64 0, AddOp.addUint8Array [1, 2, 3], AddOp.addSerializable byteObject 9]
    (by decide)
  ⟨w.1, w.2.1 Args.fresh [104, 105], w.2.2.1 Args.fresh .U32 [1, 2, 3],
    w.2.2.2 Args.fresh Nat byteObject [1, 2, 3]⟩

/-! ## Websocket provider selection -/

/-- C25, websocket provider selection: with the four default provider URLs pairwise
distinct, `getWsProvider(p)` returns the websocket URL of the same network when
`p` is the LABNET, MAINNET, LOCALNET or TESTNET provider URL, and the LOCALNET
websocket URL for every other `p`; it always returns one of the four websocket
URLs of the table. -/
theorem ws_provider_selection (urls : DefaultProviderUrls) (wsUrls : DefaultWsProviderUrls)
    (p : String)
    (hd : [urls.LABNET, urls.MAINNET, urls.LOCALNET, urls.TESTNET].Nodup) :
    getWsProvider urls wsUrls urls.LABNET = wsUrls.LABNET
    ∧ getWsProvider urls wsUrls urls.MAINNET = wsUrls.MAINNET
    ∧ getWsProvider urls wsUrls urls.LOCALNET = wsUrls.LOCALNET
    ∧ getWsProvider urls wsUrls urls.TESTNET = wsUrls.TESTNET
    ∧ (p ∉ [urls.LABNET, urls.MAINNET, urls.LOCALNET, urls.TESTNET] →
        getWsProvider urls wsUrls p = wsUrls.LOCALNET)
    ∧ getWsProvider urls wsUrls p
        ∈ [wsUrls.LABNET, wsUrls.MAINNET, wsUrls.LOCALNET, wsUrls.TESTNET] := by
  simp only [List.nodup_cons, List.mem_cons, List.mem_singleton, not_or, List.not_mem_nil,
    not_false_eq_true, List.nodup_nil, and_true] at hd
  obtain ⟨⟨h12, h13, h14⟩, ⟨h23, h24⟩, h34⟩ := hd
  refine ⟨?_, ?_, ?_, ?_, ?_, ?_⟩
  · simp only [getWsProvider, if_true]
  · simp only [getWsProvider, Ne.symm h12, if_false, if_true]
  · simp only [getWsProvider, Ne.symm h13, Ne.symm h23, if_false, if_true]
  · simp only [getWsProvider, Ne.symm h14, Ne.symm h24, Ne.symm h34, if_false, if_true]
  · intro hp
    simp only [List.mem_cons, List.mem_singleton, not_or, List.not_mem_nil, or_false] at hp
    simp only [getWsProvider, hp.1, hp.2.1, hp.2.2.1, hp.2.2.2, if_false]
  · unfold getWsProvider
    split_ifs <;> simp

theorem ws_provider_selection_witness :
    getWsProvider exampleProviderUrls exampleWsProviderUrls exampleProviderUrls.LABNET
        = exampleWsProviderUrls.LABNET
    ∧ getWsProvider exampleProviderUrls exampleWsProviderUrls exampleProviderUrls.MAINNET
        = exampleWsProviderUrls.MAINNET
    ∧ getWsProvider exampleProviderUrls exampleWsProviderUrls exampleProviderUrls.LOCALNET
        = exampleWsProviderUrls.LOCALNET
    ∧ getWsProvider exampleProviderUrls exampleWsProviderUrls exampleProviderUrls.TESTNET
        = exampleWsProviderUrls.TESTNET
    ∧ ("https://custom.example/api" ∉ [exampleProviderUrls.LABNET, exampleProviderUrls.MAINNET,
          exampleProviderUrls.LOCALNET, exampleProviderUrls.TESTNET] →
        getWsProvider exampleProviderUrls exampleWsProviderUrls "https://custom.example/api"
          = exampleWsProviderUrls.LOCALNET)
    ∧ getWsProvider exampleProviderUrls exampleWsProviderUrls "https://custom.example/api"
        ∈ [exampleWsProviderUrls.LABNET, exampleWsProviderUrls.MAINNET,
            exampleWsProviderUrls.LOCALNET, exampleWsProviderUrls.TESTNET] :=
  ws_provider_selection exampleProviderUrls exampleWsProviderUrls "https://custom.example/api"
    (by decide)

end MassaWeb3
